import Mathlib

/-! # kolari-p2p: the room hub and the peer session

A shallow embedding of `main.go`: the room event loop (`Room.run`), the
inbound loop of a peer session (`Client.readPump`), and the construction of a
session in `serveWs`.

Conventions of the embedding.

* A `*Client` pointer is a natural number; the `Client` values live in a heap
  `ClientId → Client`.
* A buffered Go channel is its buffer, its capacity and a closed flag.  A send
  on a closed channel and a close of a closed channel are run-time panics.
* A Go `map[string]interface{}` is `Option` of an association list: `none` is
  the nil map, which can be read but not written.
* `r.clients` is the list of its keys.  Go ranges over a map in an unspecified
  order; the list order stands for whichever order the run-time picks.  The
  statements about one event hold for every state, hence for every order; in
  `Room.run` a later loop visits the keys in the order the earlier events
  left them in.
* A panic in any goroutine ends the process.  The state records it in
  `panicked`, and a panicked state takes no further step.
* `encoding/json` is a parameter (`Json`) of every definition that calls it.
-/

namespace Kolari

/-! ## Data model -/

/-- Go `[]byte`, as the list of byte values. -/
abbrev Bytes := List Nat

/-- The constant `websocket.TextMessage`. -/
def TextMessage : Nat := 1

/-- The constant `websocket.BinaryMessage`. -/
def BinaryMessage : Nat := 2

/-- Values that `encoding/json` stores in an `interface{}`. -/
inductive JVal where
  | null
  | bool (b : Bool)
  | num (n : Int)
  | str (s : String)
  | arr (xs : List JVal)
  | obj (kvs : List (String × JVal))

/-- The entries of a non-nil `map[string]interface{}`. -/
abbrev JMap := List (String × JVal)

/-- Go `map[string]interface{}`; `none` is the nil map. -/
abbrev GoMap := Option JMap

/-- Write `m[k] = v` on the entries of a non-nil map. -/
def JMap.set : JMap → String → JVal → JMap
  | [], k, v => [(k, v)]
  | (k', v') :: rest, k, v =>
    if k' = k then (k, v) :: rest else (k', v') :: JMap.set rest k v

/-- Read `m[k]`; reading a nil map, or an absent key, gives nil. -/
def GoMap.index (m : GoMap) (k : String) : Option JVal :=
  match m with
  | none => none
  | some kvs => kvs.lookup k

/-- Assignment `m[k] = v`; `none` is the panic on a nil map. -/
def GoMap.assign (m : GoMap) (k : String) (v : JVal) : Option JMap :=
  match m with
  | none => none
  | some kvs => some (JMap.set kvs k v)

/-- Comparison `x == s` of an `interface{}` value with a string constant. -/
def isString (x : Option JVal) (s : String) : Bool :=
  match x with
  | some (JVal.str t) => t == s
  | _ => false

/-- The two calls into `encoding/json` that the program makes.
`Unmarshal p` is `json.Unmarshal(p, &msg)` for a fresh
`var msg map[string]interface{}`: `none` is a non-nil error, `some msg` the
value of `msg` when the error is nil.  `Marshal m` is `json.Marshal(m)` for a
non-nil map: `none` is a non-nil error. -/
structure Json where
  Unmarshal : Bytes → Option GoMap
  Marshal : JMap → Option Bytes

/-- Run-time panics the program can raise. -/
inductive Panic where
  | closeOfClosedChannel
  | sendOnClosedChannel
  | assignToNilMap
  deriving DecidableEq, Repr

/-- Go struct `WebSocketMessage`. -/
structure WebSocketMessage where
  MType : Nat
  Data : Bytes
  deriving DecidableEq, Repr

/-- A buffered `chan WebSocketMessage`. -/
structure Chan where
  buf : List WebSocketMessage
  cap : Nat
  closed : Bool
  deriving DecidableEq, Repr

/-- Result of `select { case ch <- m: ... default: ... }`. -/
inductive SendResult where
  | sent (ch : Chan)
  | full
  | panic

/-- The non-blocking send `select { case ch <- m: default: }`. -/
def Chan.trySend (ch : Chan) (m : WebSocketMessage) : SendResult :=
  if ch.closed then SendResult.panic
  else if ch.buf.length < ch.cap then SendResult.sent { ch with buf := ch.buf ++ [m] }
  else SendResult.full

/-- Pointer to a `Client`. -/
abbrev ClientId := Nat

/-- Go struct `Client` (without the connection); `closeOnce` is true once
`closeOnce.Do` has run. -/
structure Client where
  send : Chan
  currentFileMetadata : GoMap
  closeOnce : Bool

/-- Go struct `Message`. -/
structure Message where
  MType : Nat
  Data : Bytes
  Sender : ClientId
  Metadata : GoMap

/-- The `Client` built by `serveWs`. -/
def newClient : Client :=
  { send := { buf := [], cap := 256, closed := false }
    currentFileMetadata := some []
    closeOnce := false }

/-- Statement `close(c.send)`. -/
def Client.closeSend (c : Client) : Except Panic Client :=
  if c.send.closed then Except.error Panic.closeOfClosedChannel
  else Except.ok { c with send := { c.send with closed := true } }

/-- Statement `c.closeOnce.Do(func() { close(c.send) })`. -/
def Client.closeOnceDo (c : Client) : Except Panic Client :=
  if c.closeOnce then Except.ok c
  else Client.closeSend { c with closeOnce := true }

/-- What the body of a `for client := range r.clients` loop does with the
client it visits: keep it in `r.clients`, delete it, or panic. -/
inductive Outcome where
  | keep (c : Client)
  | evict (c : Client)
  | panic (p : Panic)

/-- The `select` with `default: close(c.send); delete(r.clients, c)`
(the register loop, and the final send of the broadcast loop). -/
def Client.sendOrClose (c : Client) (m : WebSocketMessage) : Outcome :=
  match c.send.trySend m with
  | SendResult.sent ch => Outcome.keep { c with send := ch }
  | SendResult.full =>
    match c.closeSend with
    | Except.ok c' => Outcome.evict c'
    | Except.error p => Outcome.panic p
  | SendResult.panic => Outcome.panic Panic.sendOnClosedChannel

/-- Room together with the clients its pointers refer to, and the panic that
ended the process, if any. -/
structure State where
  clients : List ClientId
  heap : ClientId → Client
  panicked : Option Panic

/-- Store a client value at a pointer. -/
def State.setClient (st : State) (c : ClientId) (cl : Client) : State :=
  { st with heap := fun x => if x = c then cl else st.heap x }

/-- Statement `delete(r.clients, c)`. -/
def State.delete (st : State) (c : ClientId) : State :=
  { st with clients := st.clients.filter (fun x => x != c) }

/-- Effect of one loop body on the state. -/
def State.apply (st : State) (c : ClientId) : Outcome → State
  | Outcome.keep cl => st.setClient c cl
  | Outcome.evict cl => (st.setClient c cl).delete c
  | Outcome.panic p => { st with panicked := some p }

/-- One iteration of `for c := range r.clients { body }`, where the body
touches only the client it visits and may delete only that client.  After a
panic nothing runs. -/
def Room.visit (body : ClientId → Client → Outcome) (s : State) (c : ClientId) : State :=
  if s.panicked.isSome then s else s.apply c (body c (s.heap c))

/-- Loop `for c := range r.clients { body }` over the keys present when the
loop starts. -/
def Room.forEach (body : ClientId → Client → Outcome) (st : State) : State :=
  st.clients.foldl (Room.visit body) st

/-! ## Room.run -/

/-- The literal sent to every member when a second member joins. -/
def joinNotice : String :=
  "\x7b\"type\": \"status\", \"message\": \"User has joined. You can now share files.\", \"ready\": true\x7d"

/-- Conversion `[]byte(s)` for an ASCII literal. -/
def bytesOf (s : String) : Bytes := s.toList.map Char.toNat

/-- Statement `r.clients[client] = true`. -/
def State.insert (st : State) (client : ClientId) : State :=
  { st with clients := if client ∈ st.clients then st.clients else st.clients ++ [client] }

/-- Case `client := <-r.register`. -/
def Room.onRegister (st : State) (client : ClientId) : State :=
  let st1 := st.insert client
  if st1.clients.length > 1 then
    Room.forEach (fun _ c => c.sendOrClose ⟨TextMessage, bytesOf joinNotice⟩) st1
  else st1

/-- Case `client := <-r.unregister`. -/
def Room.onUnregister (st : State) (client : ClientId) : State :=
  if client ∈ st.clients then
    let st1 := st.delete client
    match (st1.heap client).closeSend with
    | Except.ok cl => st1.setClient client cl
    | Except.error p => { st1 with panicked := some p }
  else st

/-- Body of the broadcast loop for a client other than the sender.  The loop
writes `isSender` into the map that `message.Metadata` points to; the write
is the same for every recipient, so each body is given the map of the message
and writes it again. -/
def Room.relay (J : Json) (message : Message) (client : Client) : Outcome :=
  if message.MType = BinaryMessage then
    match message.Metadata.assign "isSender" (JVal.bool false) with
    | none => Outcome.panic Panic.assignToNilMap
    | some metadata =>
      match J.Marshal metadata with
      | some metadataJSON =>
        match client.send.trySend ⟨TextMessage, metadataJSON⟩ with
        | SendResult.sent ch =>
          Client.sendOrClose { client with send := ch } ⟨message.MType, message.Data⟩
        | SendResult.full =>
          match client.closeOnceDo with
          | Except.ok c' => Outcome.evict c'
          | Except.error p => Outcome.panic p
        | SendResult.panic => Outcome.panic Panic.sendOnClosedChannel
      | none => client.sendOrClose ⟨message.MType, message.Data⟩
  else
    match J.Unmarshal message.Data with
    | some msg =>
      match msg.assign "isSender" (JVal.bool false) with
      | none => Outcome.panic Panic.assignToNilMap
      | some msg' =>
        match J.Marshal msg' with
        | some newData => client.sendOrClose ⟨message.MType, newData⟩
        | none => Outcome.keep client
    | none => Outcome.keep client

/-- Case `message := <-r.broadcast`. -/
def Room.onBroadcast (J : Json) (st : State) (message : Message) : State :=
  Room.forEach
    (fun c cl => if c = message.Sender then Outcome.keep cl else Room.relay J message cl) st

/-- What the room receives on one of its three channels. -/
inductive Event where
  | register (client : ClientId)
  | unregister (client : ClientId)
  | broadcast (message : Message)

/-- One iteration of the `for { select { ... } }` loop of `Room.run`. -/
def Room.step (J : Json) (st : State) (ev : Event) : State :=
  if st.panicked.isSome then st
  else
    match ev with
    | Event.register c => Room.onRegister st c
    | Event.unregister c => Room.onUnregister st c
    | Event.broadcast m => Room.onBroadcast J st m

/-- The loop of `Room.run` over the events it receives, in order. -/
def Room.run (J : Json) (st : State) (evs : List Event) : State :=
  evs.foldl (Room.step J) st

/-! ## Client.readPump -/

/-- Result of `c.conn.ReadMessage()` when the error is nil. -/
structure Frame where
  messageType : Nat
  p : Bytes

/-- One iteration of the read loop after a successful `ReadMessage`: the new
client value and the `Message` sent on `room.broadcast`, if any. -/
def Client.readFrame (J : Json) (self : ClientId) (c : Client) (f : Frame) :
    Client × Option Message :=
  if f.messageType = TextMessage then
    match J.Unmarshal f.p with
    | none => (c, none)
    | some msg =>
      if isString (msg.index "type") "file_metadata" then
        ({ c with currentFileMetadata := msg }, none)
      else
        (c, some { MType := TextMessage, Data := f.p, Sender := self, Metadata := none })
  else if f.messageType = BinaryMessage then
    match c.currentFileMetadata with
    | some md =>
      ({ c with currentFileMetadata := none },
        some { MType := BinaryMessage, Data := f.p, Sender := self, Metadata := some md })
    | none => (c, none)
  else (c, none)

/-- The read loop over the frames received, in order: the final client value
and the messages sent on `room.broadcast`, in order. -/
def Client.readPump (J : Json) (self : ClientId) : Client → List Frame → Client × List Message
  | c, [] => (c, [])
  | c, f :: fs =>
    let r := Client.readFrame J self c f
    let rest := Client.readPump J self r.1 fs
    (rest.1, r.2.toList ++ rest.2)

/-- The deferred function of `readPump`: the room handles `unregister <- c`,
then the session runs `c.closeOnce.Do(func() { close(c.send) })`. -/
def Client.teardown (J : Json) (st : State) (c : ClientId) : State :=
  let st1 := Room.step J st (Event.unregister c)
  if st1.panicked.isSome then st1
  else
    match (st1.heap c).closeOnceDo with
    | Except.ok cl => st1.setClient c cl
    | Except.error p => { st1 with panicked := some p }

/-! ## A reference implementation of the `encoding/json` parameter

An executable codec for a fragment of JSON, used to evaluate the program on
concrete frames.  The fragment: objects, arrays, `null`, `true`, `false`,
integer literals, and strings made of printable ASCII bytes other than the
double quote, the backslash, `<`, `>` and `&` (the bytes `encoding/json`
writes back unescaped).  Inside the fragment it follows `encoding/json`:
insignificant white space is skipped, a repeated key keeps its last value,
`null` at the top level leaves the map nil without an error, any other
non-object document is an error, and `Marshal` writes the keys in sorted
order without white space.  An integer literal of magnitude at most 2^53
stands for the `float64` value equal to it, which the library prints back
with the same digits; larger literals, `-0`, fractions and exponents are
outside the fragment, as are escape sequences and non-ASCII bytes in strings.
The codec answers a document or a value outside the fragment with `none`;
that answer says nothing about the library, which accepts such input.  The
theorems below hold for every codec, and the reference codec is evaluated
only on documents of the fragment. -/

namespace RefJson

/-- White space bytes of JSON: space, tab, line feed, carriage return. -/
def isSpace (b : Nat) : Bool := b == 32 || b == 9 || b == 10 || b == 13

/-- Drop leading white space. -/
def skipSpace : Bytes → Bytes
  | [] => []
  | b :: rest => if isSpace b then skipSpace rest else b :: rest

/-- Bytes of a string that are written without an escape sequence. -/
def plainByte (b : Nat) : Bool :=
  32 ≤ b && b ≤ 126 && b != 34 && b != 92 && b != 60 && b != 62 && b != 38

/-- Read a string body up to its closing quote. -/
def scanString : Bytes → Option (List Nat × Bytes)
  | [] => none
  | b :: rest =>
    if b = 34 then some ([], rest)
    else if plainByte b then (scanString rest).map (fun r => (b :: r.1, r.2))
    else none

/-- The string with the given ASCII bytes. -/
def stringOf (bs : List Nat) : String := String.mk (bs.map Char.ofNat)

/-- Read the longest run of decimal digits. -/
def scanDigits : Bytes → List Nat × Bytes
  | [] => ([], [])
  | b :: rest =>
    if 48 ≤ b ∧ b ≤ 57 then
      let r := scanDigits rest
      ((b - 48) :: r.1, r.2)
    else ([], b :: rest)

/-- Value of a digit string, most significant digit first. -/
def digitsValue (ds : List Nat) : Nat := ds.foldl (fun acc d => 10 * acc + d) 0

/-- Read a natural number literal without a leading zero. -/
def scanNat (inp : Bytes) : Option (Nat × Bytes) :=
  match scanDigits inp with
  | ([], _) => none
  | ([d], rest) => some (d, rest)
  | (d :: ds, rest) => if d = 0 then none else some (digitsValue (d :: ds), rest)

/-- Largest magnitude up to which every integer is a `float64` value. -/
def maxExactInt : Nat := 9007199254740992

/-- Read an integer literal of the fragment: magnitude at most `maxExactInt`,
and not `-0`, whose `float64` value is not an integer of the model. -/
def scanInt : Bytes → Option (Int × Bytes)
  | 45 :: rest =>
    (scanNat rest).bind
      (fun r => if r.1 = 0 ∨ maxExactInt < r.1 then none else some (-(r.1 : Int), r.2))
  | inp =>
    (scanNat inp).bind (fun r => if maxExactInt < r.1 then none else some ((r.1 : Int), r.2))

mutual

/-- Read one JSON value; the first argument bounds the number of nested
calls, and the length of the input is always enough. -/
def parseValue : Nat → Bytes → Option (JVal × Bytes)
  | 0, _ => none
  | fuel + 1, inp =>
    match skipSpace inp with
    | 110 :: 117 :: 108 :: 108 :: rest => some (JVal.null, rest)
    | 116 :: 114 :: 117 :: 101 :: rest => some (JVal.bool true, rest)
    | 102 :: 97 :: 108 :: 115 :: 101 :: rest => some (JVal.bool false, rest)
    | 34 :: rest => (scanString rest).map (fun r => (JVal.str (stringOf r.1), r.2))
    | 91 :: rest =>
      match skipSpace rest with
      | 93 :: rest1 => some (JVal.arr [], rest1)
      | _ => (parseElems fuel rest).map (fun r => (JVal.arr r.1, r.2))
    | 123 :: rest =>
      match skipSpace rest with
      | 125 :: rest1 => some (JVal.obj [], rest1)
      | _ => (parseMembers fuel rest).map (fun r => (JVal.obj r.1, r.2))
    | other => (scanInt other).map (fun r => (JVal.num r.1, r.2))

/-- Read the elements of an array up to its closing bracket. -/
def parseElems : Nat → Bytes → Option (List JVal × Bytes)
  | 0, _ => none
  | fuel + 1, inp =>
    match parseValue fuel inp with
    | none => none
    | some (v, rest) =>
      match skipSpace rest with
      | 44 :: rest1 => (parseElems fuel rest1).map (fun r => (v :: r.1, r.2))
      | 93 :: rest1 => some ([v], rest1)
      | _ => none

/-- Read the members of an object up to its closing brace; a repeated key
keeps its last value. -/
def parseMembers : Nat → Bytes → Option (JMap × Bytes)
  | 0, _ => none
  | fuel + 1, inp =>
    match skipSpace inp with
    | 34 :: rest =>
      match scanString rest with
      | none => none
      | some (key, rest1) =>
        match skipSpace rest1 with
        | 58 :: rest2 =>
          match parseValue fuel rest2 with
          | none => none
          | some (v, rest3) =>
            match skipSpace rest3 with
            | 44 :: rest4 =>
              (parseMembers fuel rest4).map
                (fun r => (if (r.1.lookup (stringOf key)).isSome then r.1
                           else (stringOf key, v) :: r.1, r.2))
            | 125 :: rest4 => some ([(stringOf key, v)], rest4)
            | _ => none
        | _ => none
    | _ => none

end

/-- Decimal digits of a natural number, as ASCII bytes; the first argument
bounds the number of digits. -/
def natDigits : Nat → Nat → Bytes
  | 0, _ => []
  | fuel + 1, n => if n < 10 then [48 + n] else natDigits fuel (n / 10) ++ [48 + n % 10]

/-- Decimal form of an integer of the fragment. -/
def encodeInt (i : Int) : Option Bytes :=
  if maxExactInt < i.natAbs then none
  else
    match i with
    | Int.ofNat n => some (natDigits (n + 1) n)
    | Int.negSucc n => some (45 :: natDigits (n + 2) (n + 1))

/-- Quoted form of a string of the fragment. -/
def encodeString (s : String) : Option Bytes :=
  if (bytesOf s).all plainByte then some ([34] ++ bytesOf s ++ [34]) else none

/-- Lexicographic order on byte strings. -/
def ltBytes : Bytes → Bytes → Bool
  | [], [] => false
  | [], _ :: _ => true
  | _ :: _, [] => false
  | a :: as, b :: bs => a < b || (a == b && ltBytes as bs)

/-- Insert a member into a list sorted by key. -/
def insertMember (m : String × Bytes) : List (String × Bytes) → List (String × Bytes)
  | [] => [m]
  | x :: xs =>
    if ltBytes (bytesOf x.1) (bytesOf m.1) then x :: insertMember m xs else m :: x :: xs

/-- Sort members by key. -/
def sortMembers (ms : List (String × Bytes)) : List (String × Bytes) :=
  ms.foldr insertMember []

/-- Join encoded items with commas. -/
def joinComma : List Bytes → Bytes
  | [] => []
  | [x] => x
  | x :: y :: rest => x ++ [44] ++ joinComma (y :: rest)

/-- Encoded form `"key":value` of a member. -/
def encodeMember (m : String × Bytes) : Option Bytes :=
  (encodeString m.1).map (fun k => k ++ [58] ++ m.2)

/-- Object text for members whose values are already encoded. -/
def encodeObject (ms : List (String × Bytes)) : Option Bytes :=
  ((sortMembers ms).mapM encodeMember).map (fun xs => [123] ++ joinComma xs ++ [125])

mutual

/-- Compact text of a value. -/
def encodeValue : JVal → Option Bytes
  | JVal.null => some (bytesOf "null")
  | JVal.bool true => some (bytesOf "true")
  | JVal.bool false => some (bytesOf "false")
  | JVal.num n => encodeInt n
  | JVal.str s => encodeString s
  | JVal.arr xs => (encodeElems xs).map (fun ys => [91] ++ joinComma ys ++ [93])
  | JVal.obj kvs => (encodeMembers kvs).bind encodeObject

/-- Compact text of each element of an array. -/
def encodeElems : List JVal → Option (List Bytes)
  | [] => some []
  | x :: xs =>
    match encodeValue x, encodeElems xs with
    | some y, some ys => some (y :: ys)
    | _, _ => none

/-- Compact text of each member value of an object. -/
def encodeMembers : List (String × JVal) → Option (List (String × Bytes))
  | [] => some []
  | (k, v) :: rest =>
    match encodeValue v, encodeMembers rest with
    | some y, some ys => some ((k, y) :: ys)
    | _, _ => none

end

/-- Call `json.Unmarshal(p, &msg)` with `msg` a nil `map[string]interface{}`. -/
def Unmarshal (p : Bytes) : Option GoMap :=
  match parseValue (p.length + 1) p with
  | none => none
  | some (v, rest) =>
    match skipSpace rest with
    | [] =>
      match v with
      | JVal.null => some none
      | JVal.obj kvs => some (some kvs)
      | _ => none
    | _ => none

/-- Call `json.Marshal(m)` for a non-nil map. -/
def Marshal (m : JMap) : Option Bytes := encodeValue (JVal.obj m)

end RefJson

/-- The reference codec. -/
def refJson : Json := { Unmarshal := RefJson.Unmarshal, Marshal := RefJson.Marshal }

/-! ## Well-formed states -/

/-- Invariant of the room between two events: `r.clients` has no repeated key,
and a member has an open queue and an unused `closeOnce`. -/
def State.WF (st : State) : Prop :=
  st.clients.Nodup ∧
    ∀ c ∈ st.clients, (st.heap c).send.closed = false ∧ (st.heap c).closeOnce = false

/-- A text frame that `readPump` stores as pending metadata. -/
def isAnnouncement (J : Json) (f : Frame) : Bool :=
  f.messageType == TextMessage &&
    match J.Unmarshal f.p with
    | some msg => isString (msg.index "type") "file_metadata"
    | none => false

/-- The client value an outcome stores; the given one after a panic. -/
def Outcome.client (o : Outcome) (dflt : Client) : Client :=
  match o with
  | Outcome.keep c => c
  | Outcome.evict c => c
  | Outcome.panic _ => dflt

/-- Whether the outcome deletes the client from `r.clients`. -/
def Outcome.evicts : Outcome → Bool
  | Outcome.evict _ => true
  | _ => false

/-- Whether the outcome is a panic. -/
def Outcome.panics : Outcome → Bool
  | Outcome.panic _ => true
  | _ => false

/-- Data for which the relay body does not write to a nil map. -/
def Room.relayable (J : Json) (message : Message) : Prop :=
  (message.MType = BinaryMessage → message.Metadata ≠ none) ∧
  (message.MType ≠ BinaryMessage → J.Unmarshal message.Data ≠ some none)

/-- The delivery attempts of the broadcast case that find the queue of a
recipient at capacity, each with the queue as it is at that attempt: the send
of a relayed text message, the send of the relayed metadata, the send of the
binary payload after its metadata took the last free slot, and the send of the
binary payload when the metadata could not be serialized. -/
inductive Room.FullAt (J : Json) (message : Message) (cl : Client) :
    List WebSocketMessage → Prop where
  | text (m : JMap) (d : Bytes) :
    message.MType ≠ BinaryMessage → J.Unmarshal message.Data = some (some m) →
    J.Marshal (JMap.set m "isSender" (JVal.bool false)) = some d →
    cl.send.cap ≤ cl.send.buf.length → Room.FullAt J message cl cl.send.buf
  | metadata (md : JMap) (js : Bytes) :
    message.MType = BinaryMessage → message.Metadata = some md →
    J.Marshal (JMap.set md "isSender" (JVal.bool false)) = some js →
    cl.send.cap ≤ cl.send.buf.length → Room.FullAt J message cl cl.send.buf
  | payload (md : JMap) (js : Bytes) :
    message.MType = BinaryMessage → message.Metadata = some md →
    J.Marshal (JMap.set md "isSender" (JVal.bool false)) = some js →
    cl.send.buf.length + 1 = cl.send.cap →
    Room.FullAt J message cl (cl.send.buf ++ [⟨TextMessage, js⟩])
  | payloadAlone (md : JMap) :
    message.MType = BinaryMessage → message.Metadata = some md →
    J.Marshal (JMap.set md "isSender" (JVal.bool false)) = none →
    cl.send.cap ≤ cl.send.buf.length → Room.FullAt J message cl cl.send.buf

/-- A client as built by `serveWs` whose queue has since been filled with
`n` copies of the join notice. -/
def filledClient (n : Nat) : Client :=
  { newClient with
    send := { buf := List.replicate n ⟨TextMessage, bytesOf joinNotice⟩, cap := 256,
              closed := false } }

/-- A room of three sessions 0, 1, 2 where the queue of session 1 holds `n`
messages and the other two queues are empty. -/
def roomWithBacklog (n : Nat) : State :=
  { clients := [0, 1, 2]
    heap := fun x => if x = 1 then filledClient n else newClient
    panicked := none }

/-- The property as the specification words it: in the frames `fs` received
by a session that starts as `c`, every binary frame that the inbound loop
forwards comes right after a metadata announcement. -/
def ImmediatelyAnnounced (J : Json) (self : ClientId) (c : Client) (fs : List Frame) : Prop :=
  ∀ (pre : List Frame) (f : Frame) (post : List Frame), fs = pre ++ f :: post →
    f.messageType = BinaryMessage →
    (Client.readFrame J self (Client.readPump J self c pre).1 f).2.isSome = true →
    ∃ (pre0 : List Frame) (a : Frame), pre = pre0 ++ [a] ∧ isAnnouncement J a = true

/-- A room whose members are the given sessions, each as built by `serveWs`. -/
def freshRoom (members : List ClientId) : State :=
  { clients := members, heap := fun _ => newClient, panicked := none }

/-! ## Lemmas on the range loop -/

theorem State.apply_heap_ne (st : State) (c x : ClientId) (o : Outcome) (h : x ≠ c) :
    (st.apply c o).heap x = st.heap x := by
  cases o <;> simp [State.apply, State.setClient, State.delete, h]

theorem State.apply_heap_self (st : State) (c : ClientId) (o : Outcome) :
    (st.apply c o).heap c = o.client (st.heap c) := by
  cases o <;> simp [State.apply, State.setClient, State.delete, Outcome.client]

theorem State.apply_clients (st : State) (c : ClientId) (o : Outcome) :
    (st.apply c o).clients =
      if o.evicts then st.clients.filter (fun x => x != c) else st.clients := by
  cases o <;> simp [State.apply, State.setClient, State.delete, Outcome.evicts]

theorem State.apply_panicked (st : State) (c : ClientId) (o : Outcome)
    (h : o.panics = false) : (st.apply c o).panicked = st.panicked := by
  cases o <;> simp_all [State.apply, State.setClient, State.delete, Outcome.panics]

theorem Room.visit_panicked (body : ClientId → Client → Outcome) (s : State) (c : ClientId)
    (h : s.panicked.isSome = true) : Room.visit body s c = s := by
  simp [Room.visit, h]

theorem Room.fold_panicked (body : ClientId → Client → Outcome) :
    ∀ (l : List ClientId) (s : State), s.panicked.isSome = true →
      l.foldl (Room.visit body) s = s := by
  intro l
  induction l with
  | nil => intro s _; rfl
  | cons c l ih =>
    intro s h
    simp only [List.foldl_cons, Room.visit_panicked body s c h]
    exact ih s h

/-- A client on which the body does nothing, or panics, keeps its value and
its membership through the loop. -/
theorem Room.fold_fixed (body : ClientId → Client → Outcome) (x : ClientId)
    (P : Client → Prop)
    (hx : ∀ cl, P cl → body x cl = Outcome.keep cl ∨ ∃ p, body x cl = Outcome.panic p) :
    ∀ (l : List ClientId) (s : State), P (s.heap x) →
      (l.foldl (Room.visit body) s).heap x = s.heap x ∧
      ((l.foldl (Room.visit body) s).clients.count x = s.clients.count x) := by
  intro l
  induction l with
  | nil => intro s _; exact ⟨rfl, rfl⟩
  | cons c l ih =>
    intro s hP
    simp only [List.foldl_cons]
    have key : (Room.visit body s c).heap x = s.heap x ∧
        (Room.visit body s c).clients.count x = s.clients.count x := by
      unfold Room.visit
      split
      · exact ⟨rfl, rfl⟩
      · by_cases hc : x = c
        · subst hc
          rcases hx _ hP with h | ⟨p, h⟩
          · rw [h]; simp [State.apply, State.setClient]
          · rw [h]; simp [State.apply]
        · refine ⟨State.apply_heap_ne _ _ _ _ hc, ?_⟩
          rw [State.apply_clients]
          split
          · rw [List.count_filter]
            simpa using hc
          · rfl
    have h2 := ih (Room.visit body s c) (by rw [key.1]; exact hP)
    exact ⟨h2.1.trans key.1, h2.2.trans key.2⟩

/-- When no body panics, the loop gives every visited client the value its
own body computes, and deletes exactly the clients whose body evicts. -/
theorem Room.fold_spec (body : ClientId → Client → Outcome) :
    ∀ (l : List ClientId) (s : State), l.Nodup → s.panicked = none →
      (∀ c ∈ l, (body c (s.heap c)).panics = false) →
      (l.foldl (Room.visit body) s).panicked = none ∧
      (∀ x, (l.foldl (Room.visit body) s).heap x =
        if x ∈ l then (body x (s.heap x)).client (s.heap x) else s.heap x) ∧
      (l.foldl (Room.visit body) s).clients =
        s.clients.filter (fun y => !(decide (y ∈ l) && (body y (s.heap y)).evicts)) := by
  intro l
  induction l with
  | nil => intro s _ hp _; simp [hp]
  | cons c l ih =>
    intro s hnd hp hb
    have hcl : c ∉ l := (List.nodup_cons.mp hnd).1
    have hnd1 : l.Nodup := (List.nodup_cons.mp hnd).2
    have hbc : (body c (s.heap c)).panics = false := hb c (List.mem_cons_self _ _)
    have hv : Room.visit body s c = s.apply c (body c (s.heap c)) := by
      simp [Room.visit, hp]
    have hp1 : (Room.visit body s c).panicked = none := by
      rw [hv, State.apply_panicked _ _ _ hbc]; exact hp
    have hh : ∀ y, y ≠ c → (Room.visit body s c).heap y = s.heap y := by
      intro y hy; rw [hv]; exact State.apply_heap_ne _ _ _ _ hy
    have hb1 : ∀ y ∈ l, (body y ((Room.visit body s c).heap y)).panics = false := by
      intro y hy
      have hyc : y ≠ c := fun e => hcl (e ▸ hy)
      rw [hh y hyc]; exact hb y (List.mem_cons_of_mem _ hy)
    obtain ⟨i1, i2, i3⟩ := ih (Room.visit body s c) hnd1 hp1 hb1
    simp only [List.foldl_cons]
    refine ⟨i1, ?_, ?_⟩
    · intro x
      rw [i2 x]
      by_cases hxc : x = c
      · subst hxc
        simp [hcl, hv, State.apply_heap_self]
      · have hxl : (x ∈ c :: l) ↔ x ∈ l := by simp [hxc]
        simp only [hxl, hh x hxc]
    · rw [i3, hv, State.apply_clients]
      by_cases he : (body c (s.heap c)).evicts = true
      · simp only [he, if_true, List.filter_filter]
        apply List.filter_congr
        intro y _
        by_cases hyc : y = c
        · subst hyc; simp [hcl, he]
        · have := hh y hyc
          rw [hv] at this
          simp [hyc, this]
      · simp only [he, if_false]
        apply List.filter_congr
        intro y _
        by_cases hyc : y = c
        · subst hyc
          simp [hcl, he]
        · have := hh y hyc
          rw [hv] at this
          simp [hyc, this]


/-! ## Lemmas on the delivery attempts -/

theorem Client.sendOrClose_room (c : Client) (m : WebSocketMessage)
    (ho : c.send.closed = false) (h : c.send.buf.length < c.send.cap) :
    c.sendOrClose m = Outcome.keep { c with send := { c.send with buf := c.send.buf ++ [m] } } := by
  simp [Client.sendOrClose, Chan.trySend, ho, h]

theorem Client.sendOrClose_full (c : Client) (m : WebSocketMessage)
    (ho : c.send.closed = false) (h : c.send.cap ≤ c.send.buf.length) :
    c.sendOrClose m = Outcome.evict { c with send := { c.send with closed := true } } := by
  simp [Client.sendOrClose, Chan.trySend, Client.closeSend, ho, Nat.not_lt.mpr h]

theorem Client.sendOrClose_open (c : Client) (m : WebSocketMessage)
    (ho : c.send.closed = false) : (c.sendOrClose m).panics = false := by
  by_cases h : c.send.buf.length < c.send.cap
  · rw [Client.sendOrClose_room c m ho h]; rfl
  · rw [Client.sendOrClose_full c m ho (Nat.not_lt.mp h)]; rfl

theorem Client.sendOrClose_closed (c : Client) (m : WebSocketMessage)
    (hc : c.send.closed = true) :
    c.sendOrClose m = Outcome.panic Panic.sendOnClosedChannel := by
  simp [Client.sendOrClose, Chan.trySend, hc]

theorem Room.relay_open (J : Json) (message : Message) (cl : Client)
    (ho : cl.send.closed = false) (hr : Room.relayable J message) :
    (Room.relay J message cl).panics = false := by
  unfold Room.relay
  by_cases hb : message.MType = BinaryMessage
  · rw [if_pos hb]
    cases hmd : message.Metadata with
    | none => exact absurd hmd (hr.1 hb)
    | some md =>
      simp only [GoMap.assign]
      cases hj : J.Marshal (JMap.set md "isSender" (JVal.bool false)) with
      | none => exact Client.sendOrClose_open _ _ ho
      | some js =>
        by_cases hl : cl.send.buf.length < cl.send.cap
        · have e : cl.send.trySend ⟨TextMessage, js⟩ =
              SendResult.sent { cl.send with buf := cl.send.buf ++ [⟨TextMessage, js⟩] } := by
            simp [Chan.trySend, ho, hl]
          simp only [e]
          exact Client.sendOrClose_open _ _ ho
        · have e : cl.send.trySend ⟨TextMessage, js⟩ = SendResult.full := by
            simp [Chan.trySend, ho, hl]
          simp only [e]
          cases hco : cl.closeOnce <;>
            simp [Client.closeOnceDo, Client.closeSend, hco, ho, Outcome.panics]
  · rw [if_neg hb]
    cases hu : J.Unmarshal message.Data with
    | none => rfl
    | some msg =>
      cases msg with
      | none => exact absurd hu (hr.2 hb)
      | some m =>
        simp only [GoMap.assign]
        cases hj : J.Marshal (JMap.set m "isSender" (JVal.bool false)) with
        | none => rfl
        | some d => exact Client.sendOrClose_open _ _ ho

theorem Room.relay_closed (J : Json) (message : Message) (cl : Client)
    (hc : cl.send.closed = true) :
    Room.relay J message cl = Outcome.keep cl ∨ ∃ p, Room.relay J message cl = Outcome.panic p := by
  unfold Room.relay
  by_cases hb : message.MType = BinaryMessage
  · rw [if_pos hb]
    right
    cases hmd : message.Metadata with
    | none => exact ⟨_, rfl⟩
    | some md =>
      simp only [GoMap.assign]
      cases hj : J.Marshal (JMap.set md "isSender" (JVal.bool false)) with
      | none => exact ⟨_, Client.sendOrClose_closed _ _ hc⟩
      | some js => simp [Chan.trySend, hc]
  · rw [if_neg hb]
    cases hu : J.Unmarshal message.Data with
    | none => left; rfl
    | some msg =>
      cases msg with
      | none => right; exact ⟨_, rfl⟩
      | some m =>
        simp only [GoMap.assign]
        cases hj : J.Marshal (JMap.set m "isSender" (JVal.bool false)) with
        | none => left; rfl
        | some d => right; exact ⟨_, Client.sendOrClose_closed _ _ hc⟩

theorem Room.relay_text_room (J : Json) (message : Message) (cl : Client) (m : JMap) (d : Bytes)
    (hb : message.MType ≠ BinaryMessage) (hu : J.Unmarshal message.Data = some (some m))
    (hj : J.Marshal (JMap.set m "isSender" (JVal.bool false)) = some d)
    (ho : cl.send.closed = false) (hl : cl.send.buf.length < cl.send.cap) :
    Room.relay J message cl =
      Outcome.keep { cl with send := { cl.send with buf := cl.send.buf ++ [⟨message.MType, d⟩] } } := by
  unfold Room.relay
  rw [if_neg hb]
  simp only [hu, GoMap.assign, hj]
  exact Client.sendOrClose_room _ _ ho hl

theorem Room.relay_text_full (J : Json) (message : Message) (cl : Client) (m : JMap) (d : Bytes)
    (hb : message.MType ≠ BinaryMessage) (hu : J.Unmarshal message.Data = some (some m))
    (hj : J.Marshal (JMap.set m "isSender" (JVal.bool false)) = some d)
    (ho : cl.send.closed = false) (hl : cl.send.cap ≤ cl.send.buf.length) :
    Room.relay J message cl =
      Outcome.evict { cl with send := { cl.send with closed := true } } := by
  unfold Room.relay
  rw [if_neg hb]
  simp only [hu, GoMap.assign, hj]
  exact Client.sendOrClose_full _ _ ho hl

theorem Room.relay_binary_room (J : Json) (message : Message) (cl : Client) (md : JMap)
    (js : Bytes) (hb : message.MType = BinaryMessage) (hm : message.Metadata = some md)
    (hj : J.Marshal (JMap.set md "isSender" (JVal.bool false)) = some js)
    (ho : cl.send.closed = false) (hl : cl.send.buf.length + 2 ≤ cl.send.cap) :
    Room.relay J message cl =
      Outcome.keep { cl with send := { cl.send with
        buf := cl.send.buf ++ [⟨TextMessage, js⟩, ⟨BinaryMessage, message.Data⟩] } } := by
  unfold Room.relay
  rw [if_pos hb]
  have e : cl.send.trySend ⟨TextMessage, js⟩ =
      SendResult.sent { cl.send with buf := cl.send.buf ++ [⟨TextMessage, js⟩] } := by
    simp [Chan.trySend, ho]; omega
  simp only [hm, GoMap.assign, hj, e]
  refine (Client.sendOrClose_room _ _ ?_ ?_).trans ?_
  · exact ho
  · simp only [List.length_append, List.length_singleton]; omega
  · simp [hb]

theorem Room.relay_metadata_full (J : Json) (message : Message) (cl : Client) (md : JMap)
    (js : Bytes) (hb : message.MType = BinaryMessage) (hm : message.Metadata = some md)
    (hj : J.Marshal (JMap.set md "isSender" (JVal.bool false)) = some js)
    (ho : cl.send.closed = false) (hco : cl.closeOnce = false)
    (hl : cl.send.cap ≤ cl.send.buf.length) :
    Room.relay J message cl =
      Outcome.evict { cl with send := { cl.send with closed := true }, closeOnce := true } := by
  unfold Room.relay
  rw [if_pos hb]
  simp [hm, GoMap.assign, hj, Chan.trySend, ho, Nat.not_lt.mpr hl, Client.closeOnceDo,
    Client.closeSend, hco]

theorem Room.relay_payload_full (J : Json) (message : Message) (cl : Client) (md : JMap)
    (js : Bytes) (hb : message.MType = BinaryMessage) (hm : message.Metadata = some md)
    (hj : J.Marshal (JMap.set md "isSender" (JVal.bool false)) = some js)
    (ho : cl.send.closed = false) (hl : cl.send.buf.length + 1 = cl.send.cap) :
    Room.relay J message cl =
      Outcome.evict { cl with send := { cl.send with
        buf := cl.send.buf ++ [⟨TextMessage, js⟩], closed := true } } := by
  unfold Room.relay
  rw [if_pos hb]
  have e : cl.send.trySend ⟨TextMessage, js⟩ =
      SendResult.sent { cl.send with buf := cl.send.buf ++ [⟨TextMessage, js⟩] } := by
    simp [Chan.trySend, ho]; omega
  simp only [hm, GoMap.assign, hj, e]
  refine (Client.sendOrClose_full _ _ ?_ ?_).trans ?_
  · exact ho
  · simp only [List.length_append, List.length_singleton]; omega
  · rfl

theorem Room.relay_payload_alone_full (J : Json) (message : Message) (cl : Client) (md : JMap)
    (hb : message.MType = BinaryMessage) (hm : message.Metadata = some md)
    (hj : J.Marshal (JMap.set md "isSender" (JVal.bool false)) = none)
    (ho : cl.send.closed = false) (hl : cl.send.cap ≤ cl.send.buf.length) :
    Room.relay J message cl =
      Outcome.evict { cl with send := { cl.send with closed := true } } := by
  unfold Room.relay
  rw [if_pos hb]
  simp only [hm, GoMap.assign, hj]
  exact Client.sendOrClose_full _ _ ho hl

/-! ## Lemmas on the three cases of the event loop -/

theorem Room.step_of_running (J : Json) (st : State) (ev : Event) (hp : st.panicked = none) :
    Room.step J st ev =
      match ev with
      | Event.register c => Room.onRegister st c
      | Event.unregister c => Room.onUnregister st c
      | Event.broadcast m => Room.onBroadcast J st m := by
  simp [Room.step, hp]

theorem Room.step_of_panicked (J : Json) (st : State) (ev : Event)
    (hp : st.panicked.isSome = true) : Room.step J st ev = st := by
  simp [Room.step, hp]

theorem Room.run_append (J : Json) (st : State) (l1 l2 : List Event) :
    Room.run J st (l1 ++ l2) = Room.run J (Room.run J st l1) l2 := by
  simp [Room.run, List.foldl_append]

/-- The broadcast case on a well-formed state with well-formed data: every
member other than the sender gets what the relay body computes for it. -/
theorem Room.onBroadcast_spec (J : Json) (st : State) (message : Message) (hwf : st.WF)
    (hp : st.panicked = none) (hr : Room.relayable J message) :
    (Room.onBroadcast J st message).panicked = none ∧
    (∀ x, (Room.onBroadcast J st message).heap x =
      if x ∈ st.clients ∧ x ≠ message.Sender then
        (Room.relay J message (st.heap x)).client (st.heap x)
      else st.heap x) ∧
    (∀ x, x ∈ (Room.onBroadcast J st message).clients ↔
      x ∈ st.clients ∧
        (x = message.Sender ∨ (Room.relay J message (st.heap x)).evicts = false)) := by
  have hb : ∀ c ∈ st.clients,
      ((fun (c : ClientId) (cl : Client) =>
        if c = message.Sender then Outcome.keep cl else Room.relay J message cl)
        c (st.heap c)).panics = false := by
    intro c hc
    by_cases h : c = message.Sender
    · simp [h, Outcome.panics]
    · simp only [h, if_false]
      exact Room.relay_open J message _ (hwf.2 c hc).1 hr
  obtain ⟨h1, h2, h3⟩ := Room.fold_spec
    (fun (c : ClientId) (cl : Client) =>
      if c = message.Sender then Outcome.keep cl else Room.relay J message cl)
    st.clients st hwf.1 hp hb
  refine ⟨h1, ?_, ?_⟩
  · intro x
    have := h2 x
    unfold Room.onBroadcast Room.forEach
    rw [this]
    by_cases hx : x ∈ st.clients
    · by_cases hs : x = message.Sender
      · simp [hx, hs, Outcome.client]
      · simp [hx, hs]
    · simp [hx]
  · intro x
    unfold Room.onBroadcast Room.forEach
    rw [h3, List.mem_filter]
    by_cases hx : x ∈ st.clients
    · by_cases hs : x = message.Sender
      · simp [hx, hs, Outcome.evicts]
      · simp [hx, hs]
    · simp [hx]

theorem State.mem_insert (st : State) (s x : ClientId) :
    x ∈ (st.insert s).clients ↔ (x ∈ st.clients ∨ x = s) := by
  unfold State.insert
  by_cases h : s ∈ st.clients
  · simp only [h, if_true]
    constructor
    · exact Or.inl
    · rintro (h1 | h1)
      · exact h1
      · exact h1 ▸ h
  · simp [h]

theorem State.nodup_insert (st : State) (s : ClientId) (h : st.clients.Nodup) :
    (st.insert s).clients.Nodup := by
  unfold State.insert
  by_cases hs : s ∈ st.clients
  · simpa [hs] using h
  · simp only [hs, if_false]
    apply List.Nodup.append h (List.nodup_singleton s)
    intro a ha hb
    simp at hb
    exact hs (hb ▸ ha)

/-- The register case on a well-formed state, for a session with an open
queue, when the room then has more than one member. -/
theorem Room.onRegister_spec (st : State) (s : ClientId) (hwf : st.WF)
    (hp : st.panicked = none) (hs : (st.heap s).send.closed = false)
    (hlen : 1 < (st.insert s).clients.length) :
    (Room.onRegister st s).panicked = none ∧
    (∀ x, (Room.onRegister st s).heap x =
      if x ∈ st.clients ∨ x = s then
        ((st.heap x).sendOrClose ⟨TextMessage, bytesOf joinNotice⟩).client (st.heap x)
      else st.heap x) ∧
    (∀ x, x ∈ (Room.onRegister st s).clients ↔
      (x ∈ st.clients ∨ x = s) ∧
        ((st.heap x).sendOrClose ⟨TextMessage, bytesOf joinNotice⟩).evicts = false) := by
  have hb : ∀ c ∈ (st.insert s).clients,
      (((st.insert s).heap c).sendOrClose ⟨TextMessage, bytesOf joinNotice⟩).panics = false := by
    intro c hc
    apply Client.sendOrClose_open
    rcases (st.mem_insert s c).mp hc with h | h
    · exact (hwf.2 c h).1
    · exact h ▸ hs
  obtain ⟨h1, h2, h3⟩ := Room.fold_spec
    (fun _ c => c.sendOrClose ⟨TextMessage, bytesOf joinNotice⟩)
    (st.insert s).clients (st.insert s) (st.nodup_insert s hwf.1) hp hb
  have hreg : Room.onRegister st s =
      (st.insert s).clients.foldl
        (Room.visit (fun _ c => c.sendOrClose ⟨TextMessage, bytesOf joinNotice⟩))
        (st.insert s) := by
    unfold Room.onRegister Room.forEach
    simp only [gt_iff_lt, hlen, if_true]
  rw [hreg]
  refine ⟨h1, ?_, ?_⟩
  · intro x
    rw [h2 x]
    simp only [st.mem_insert s x]
    rfl
  · intro x
    rw [h3, List.mem_filter]
    simp only [st.mem_insert s x]
    by_cases hx : x ∈ st.clients ∨ x = s
    · simp [hx]; rfl
    · simp [hx]

/-- A closed queue is never written: the client behind it keeps its value
through every event. -/
theorem Room.step_closed_frozen (J : Json) (st : State) (ev : Event) (x : ClientId)
    (hc : (st.heap x).send.closed = true) : (Room.step J st ev).heap x = st.heap x := by
  unfold Room.step
  split
  · rfl
  · cases ev with
    | register c =>
      have key : ∀ s1 : State, s1.heap = st.heap →
          (if s1.clients.length > 1 then
            Room.forEach (fun _ c => c.sendOrClose ⟨TextMessage, bytesOf joinNotice⟩) s1
          else s1).heap x = st.heap x := by
        intro s1 hs1
        split
        · have := (Room.fold_fixed
            (fun _ c => c.sendOrClose ⟨TextMessage, bytesOf joinNotice⟩) x
            (fun cl => cl.send.closed = true)
            (fun cl h => Or.inr ⟨_, Client.sendOrClose_closed cl _ h⟩) s1.clients s1
            (by rw [hs1]; exact hc)).1
          rw [← hs1]
          exact this
        · rw [hs1]
      exact key _ rfl
    | unregister c =>
      simp only [Room.onUnregister]
      split
      · by_cases hxc : x = c
        · subst hxc
          simp [State.delete, Client.closeSend, hc]
        · cases h : ((st.delete c).heap c).closeSend with
          | ok cl => simp [State.setClient, State.delete, hxc]
          | error p => simp [State.delete]
      · rfl
    | broadcast m =>
      simp only [Room.onBroadcast]
      refine (Room.fold_fixed _ x (fun cl => cl.send.closed = true) ?_ _ _ hc).1
      intro cl h
      by_cases hs : x = m.Sender
      · left; simp [hs]
      · simp only [hs, if_false]
        exact Room.relay_closed J m cl h

theorem Room.run_closed_frozen (J : Json) (x : ClientId) :
    ∀ (evs : List Event) (st : State), (st.heap x).send.closed = true →
      (Room.run J st evs).heap x = st.heap x := by
  intro evs
  induction evs with
  | nil => intro st _; rfl
  | cons ev evs ih =>
    intro st hc
    have h1 := Room.step_closed_frozen J st ev x hc
    have h2 := ih (Room.step J st ev) (by rw [h1]; exact hc)
    simp only [Room.run, List.foldl_cons] at h2 ⊢
    rw [h2, h1]

/-- Once a non-sender is visited with a text payload that decodes to the nil
map, the loop has panicked on the write to that map. -/
theorem Room.fold_nil_map (J : Json) (message : Message)
    (ht : message.MType ≠ BinaryMessage) (hu : J.Unmarshal message.Data = some none) :
    ∀ (l : List ClientId) (s : State), s.panicked = none →
      (∃ c ∈ l, c ≠ message.Sender) →
      (l.foldl (Room.visit (fun c cl =>
        if c = message.Sender then Outcome.keep cl else Room.relay J message cl)) s).panicked =
        some Panic.assignToNilMap := by
  intro l
  induction l with
  | nil => intro s _ h; obtain ⟨c, hc, _⟩ := h; simp at hc
  | cons c l ih =>
    intro s hp h
    simp only [List.foldl_cons]
    by_cases hs : c = message.Sender
    · have hv : (Room.visit (fun c cl =>
          if c = message.Sender then Outcome.keep cl else Room.relay J message cl) s c).panicked =
          none := by
        simp [Room.visit, hp, hs, State.apply, State.setClient]
      apply ih _ hv
      obtain ⟨x, hx, hxs⟩ := h
      rcases List.mem_cons.mp hx with e | e
      · exact absurd (e.trans hs) hxs
      · exact ⟨x, e, hxs⟩
    · have hv : (Room.visit (fun c cl =>
          if c = message.Sender then Outcome.keep cl else Room.relay J message cl) s c).panicked =
          some Panic.assignToNilMap := by
        simp [Room.visit, hp, hs, State.apply, Room.relay, ht, hu, GoMap.assign]
      rw [Room.fold_panicked _ l _ (by rw [hv]; rfl)]
      exact hv

/-! ## The invariant is kept by every event -/

theorem State.WF_delete (st : State) (c : ClientId) (h : st.WF) : (st.delete c).WF := by
  refine ⟨List.Nodup.filter _ h.1, ?_⟩
  intro x hx
  exact h.2 x (List.mem_of_mem_filter hx)

theorem Client.sendOrClose_keep (c cl' : Client) (m : WebSocketMessage)
    (ho : c.send.closed = false) (h : c.sendOrClose m = Outcome.keep cl') :
    cl'.send.closed = false ∧ cl'.closeOnce = c.closeOnce := by
  by_cases hl : c.send.buf.length < c.send.cap
  · rw [Client.sendOrClose_room c m ho hl] at h
    injection h with h
    rw [← h]
    exact ⟨ho, rfl⟩
  · rw [Client.sendOrClose_full c m ho (Nat.not_lt.mp hl)] at h
    exact Outcome.noConfusion h

theorem Room.relay_keep (J : Json) (message : Message) (cl cl' : Client)
    (ho : cl.send.closed = false) (h : Room.relay J message cl = Outcome.keep cl') :
    cl'.send.closed = false ∧ cl'.closeOnce = cl.closeOnce := by
  unfold Room.relay at h
  by_cases hb : message.MType = BinaryMessage
  · rw [if_pos hb] at h
    cases hmd : message.Metadata with
    | none => rw [hmd] at h; exact Outcome.noConfusion h
    | some md =>
      rw [hmd] at h
      simp only [GoMap.assign] at h
      cases hj : J.Marshal (JMap.set md "isSender" (JVal.bool false)) with
      | none =>
        rw [hj] at h
        exact Client.sendOrClose_keep _ _ _ ho h
      | some js =>
        rw [hj] at h
        by_cases hl : cl.send.buf.length < cl.send.cap
        · have e : cl.send.trySend ⟨TextMessage, js⟩ =
              SendResult.sent { cl.send with buf := cl.send.buf ++ [⟨TextMessage, js⟩] } := by
            simp [Chan.trySend, ho, hl]
          simp only [e] at h
          exact Client.sendOrClose_keep
            { cl with send := { cl.send with buf := cl.send.buf ++ [⟨TextMessage, js⟩] } }
            cl' _ ho h
        · have e : cl.send.trySend ⟨TextMessage, js⟩ = SendResult.full := by
            simp [Chan.trySend, ho, hl]
          simp only [e] at h
          cases hco : cl.closeOnceDo with
          | ok c2 => rw [hco] at h; exact Outcome.noConfusion h
          | error p => rw [hco] at h; exact Outcome.noConfusion h
  · rw [if_neg hb] at h
    cases hu : J.Unmarshal message.Data with
    | none =>
      rw [hu] at h
      injection h with h
      rw [← h]; exact ⟨ho, rfl⟩
    | some msg =>
      rw [hu] at h
      cases msg with
      | none => exact Outcome.noConfusion h
      | some m =>
        simp only [GoMap.assign] at h
        cases hj : J.Marshal (JMap.set m "isSender" (JVal.bool false)) with
        | none =>
          rw [hj] at h
          injection h with h
          rw [← h]; exact ⟨ho, rfl⟩
        | some d =>
          rw [hj] at h
          exact Client.sendOrClose_keep _ _ _ ho h

theorem Room.visit_WF (body : ClientId → Client → Outcome)
    (hk : ∀ c cl cl', cl.send.closed = false → cl.closeOnce = false →
      body c cl = Outcome.keep cl' → cl'.send.closed = false ∧ cl'.closeOnce = false)
    (s : State) (c : ClientId) (hwf : s.WF) : (Room.visit body s c).WF := by
  unfold Room.visit
  split
  · exact hwf
  · cases hb : body c (s.heap c) with
    | keep cl' =>
      refine ⟨hwf.1, ?_⟩
      intro x hx
      by_cases hxc : x = c
      · subst hxc
        have := hk x _ cl' (hwf.2 x hx).1 (hwf.2 x hx).2 hb
        simpa [State.apply, State.setClient] using this
      · simpa [State.apply, State.setClient, hxc] using hwf.2 x hx
    | evict cl' =>
      refine ⟨List.Nodup.filter _ hwf.1, ?_⟩
      intro x hx
      have hx2 : x ∈ s.clients ∧ x ≠ c := by
        simpa [State.apply, State.setClient, State.delete, List.mem_filter] using hx
      simpa [State.apply, State.setClient, State.delete, hx2.2] using hwf.2 x hx2.1
    | panic p => exact hwf

theorem Room.fold_WF (body : ClientId → Client → Outcome)
    (hk : ∀ c cl cl', cl.send.closed = false → cl.closeOnce = false →
      body c cl = Outcome.keep cl' → cl'.send.closed = false ∧ cl'.closeOnce = false) :
    ∀ (l : List ClientId) (s : State), s.WF → (l.foldl (Room.visit body) s).WF := by
  intro l
  induction l with
  | nil => intro s h; exact h
  | cons c l ih => intro s h; exact ih _ (Room.visit_WF body hk s c h)

/-- The invariant holds after every event, when a session that registers has
an open queue and an unused one-shot guard, as every session built by
`serveWs` has. -/
theorem Room.step_WF (J : Json) (st : State) (ev : Event) (hwf : st.WF)
    (hreg : ∀ c, ev = Event.register c →
      (st.heap c).send.closed = false ∧ (st.heap c).closeOnce = false) :
    (Room.step J st ev).WF := by
  unfold Room.step
  split
  · exact hwf
  · cases ev with
    | register c =>
      have hins : (st.insert c).WF := by
        refine ⟨st.nodup_insert c hwf.1, ?_⟩
        intro x hx
        rcases (st.mem_insert c x).mp hx with h | h
        · exact hwf.2 x h
        · rw [h]; exact hreg c rfl
      show (Room.onRegister st c).WF
      unfold Room.onRegister
      simp only []
      split
      · apply Room.fold_WF _ _ _ _ hins
        intro c0 cl cl' ho hco h
        have := Client.sendOrClose_keep cl cl' _ ho h
        exact ⟨this.1, this.2.trans hco⟩
      · exact hins
    | unregister c =>
      show (Room.onUnregister st c).WF
      unfold Room.onUnregister
      split
      · have hd := st.WF_delete c hwf
        have hc : c ∉ (st.delete c).clients := by simp [State.delete, List.mem_filter]
        simp only []
        cases h : ((st.delete c).heap c).closeSend with
        | ok cl =>
          refine ⟨hd.1, ?_⟩
          intro x hx
          have hxc : x ≠ c := fun e => hc (e ▸ hx)
          simpa [State.setClient, hxc] using hd.2 x hx
        | error p => exact hd
      · exact hwf
    | broadcast m =>
      show (Room.onBroadcast J st m).WF
      apply Room.fold_WF _ _ _ _ hwf
      intro c0 cl cl' ho hco h
      by_cases hs : c0 = m.Sender
      · simp only [hs, if_true] at h
        injection h with h
        rw [← h]; exact ⟨ho, hco⟩
      · simp only [hs, if_false] at h
        have := Room.relay_keep J m cl cl' ho h
        exact ⟨this.1, this.2.trans hco⟩

/-! ## Lemmas on maps, on fresh rooms and on the read loop -/

theorem JMap.lookup_set_self (m : JMap) (k : String) (v : JVal) :
    (JMap.set m k v).lookup k = some v := by
  induction m with
  | nil => simp [JMap.set, List.lookup]
  | cons e rest ih =>
    obtain ⟨k', v'⟩ := e
    by_cases h : k' = k
    · simp [JMap.set, h, List.lookup]
    · have h2 : (k == k') = false := by simpa using fun e => h e.symm
      simp [JMap.set, h, List.lookup, h2, ih]

theorem JMap.lookup_set_ne (m : JMap) (k k2 : String) (v : JVal) (hk : k2 ≠ k) :
    (JMap.set m k v).lookup k2 = m.lookup k2 := by
  induction m with
  | nil =>
    have h2 : (k2 == k) = false := by simpa using hk
    simp [JMap.set, List.lookup, h2]
  | cons e rest ih =>
    obtain ⟨k', v'⟩ := e
    by_cases h : k' = k
    · subst h
      have h2 : (k2 == k') = false := by simpa using hk
      simp [JMap.set, List.lookup, h2]
    · simp only [JMap.set, h, if_false, List.lookup, ih]

theorem freshRoom_WF (l : List ClientId) (h : l.Nodup) : (freshRoom l).WF :=
  ⟨h, fun _ _ => ⟨rfl, rfl⟩⟩

theorem roomWithBacklog_WF (n : Nat) : (roomWithBacklog n).WF := by
  refine ⟨show [0, 1, 2].Nodup by decide, ?_⟩
  intro x _
  show ((if x = 1 then filledClient n else newClient).send.closed = false ∧
    (if x = 1 then filledClient n else newClient).closeOnce = false)
  split <;> exact ⟨rfl, rfl⟩

theorem Client.readPump_append (J : Json) (self : ClientId) :
    ∀ (l1 l2 : List Frame) (c : Client),
      Client.readPump J self c (l1 ++ l2) =
        ((Client.readPump J self (Client.readPump J self c l1).1 l2).1,
          (Client.readPump J self c l1).2 ++
            (Client.readPump J self (Client.readPump J self c l1).1 l2).2) := by
  intro l1
  induction l1 with
  | nil => intro l2 c; simp [Client.readPump]
  | cons f fs ih =>
    intro l2 c
    show Client.readPump J self c (f :: (fs ++ l2)) = _
    simp only [Client.readPump]
    rw [ih]
    simp only [List.append_assoc]

/-- A metadata announcement is stored and not forwarded. -/
theorem Client.readFrame_announcement (J : Json) (self : ClientId) (c : Client) (f : Frame)
    (h : isAnnouncement J f = true) :
    ∃ md, J.Unmarshal f.p = some (some md) ∧
      Client.readFrame J self c f = ({ c with currentFileMetadata := some md }, none) := by
  unfold isAnnouncement at h
  simp only [Bool.and_eq_true, beq_iff_eq] at h
  obtain ⟨ht, hu⟩ := h
  cases hj : J.Unmarshal f.p with
  | none => rw [hj] at hu; exact absurd hu (by simp)
  | some msg =>
    rw [hj] at hu
    cases msg with
    | none => simp [GoMap.index, isString] at hu
    | some md =>
      have hu2 : isString (GoMap.index (some md) "type") "file_metadata" = true := hu
      refine ⟨md, rfl, ?_⟩
      simp [Client.readFrame, ht, hj, hu2]

/-- A frame that is neither binary nor an announcement leaves the client as
it is, and what it forwards is of text kind. -/
theorem Client.readFrame_other (J : Json) (self : ClientId) (c : Client) (f : Frame)
    (hb : f.messageType ≠ BinaryMessage) (ha : isAnnouncement J f = false) :
    (Client.readFrame J self c f).1 = c ∧
    ∀ it ∈ (Client.readFrame J self c f).2, it.MType = TextMessage := by
  unfold Client.readFrame
  by_cases ht : f.messageType = TextMessage
  · rw [if_pos ht]
    cases hj : J.Unmarshal f.p with
    | none => simp
    | some msg =>
      have hs : isString (msg.index "type") "file_metadata" = false := by
        simpa [isAnnouncement, ht, hj] using ha
      simp [hs]
  · simp [ht, hb]

/-- A frame that is not binary forwards nothing of binary kind. -/
theorem Client.readFrame_text_kind (J : Json) (self : ClientId) (c : Client) (f : Frame)
    (hb : f.messageType ≠ BinaryMessage) :
    ∀ it ∈ (Client.readFrame J self c f).2, it.MType = TextMessage := by
  cases ha : isAnnouncement J f with
  | false => exact (Client.readFrame_other J self c f hb ha).2
  | true =>
    obtain ⟨md, _, e⟩ := Client.readFrame_announcement J self c f ha
    rw [e]; simp

theorem Client.readPump_text_kind (J : Json) (self : ClientId) :
    ∀ (l : List Frame) (c : Client), (∀ g ∈ l, g.messageType ≠ BinaryMessage) →
      ∀ it ∈ (Client.readPump J self c l).2, it.MType = TextMessage := by
  intro l
  induction l with
  | nil => intro c _ it hit; simp [Client.readPump] at hit
  | cons f fs ih =>
    intro c h it hit
    simp only [Client.readPump, List.mem_append] at hit
    rcases hit with h1 | h1
    · exact Client.readFrame_text_kind J self c f (h f (List.mem_cons_self _ _)) it
        (by simpa using h1)
    · exact ih _ (fun g hg => h g (List.mem_cons_of_mem _ hg)) it h1

theorem Client.readPump_other (J : Json) (self : ClientId) :
    ∀ (l : List Frame) (c : Client),
      (∀ g ∈ l, g.messageType ≠ BinaryMessage ∧ isAnnouncement J g = false) →
      (Client.readPump J self c l).1 = c := by
  intro l
  induction l with
  | nil => intro c _; rfl
  | cons f fs ih =>
    intro c h
    have h1 := (Client.readFrame_other J self c f (h f (List.mem_cons_self _ _)).1
      (h f (List.mem_cons_self _ _)).2).1
    simp only [Client.readPump, h1]
    exact ih c (fun g hg => h g (List.mem_cons_of_mem _ hg))

/-- A binary frame is forwarded exactly when the slot is not nil, and it
always leaves the slot nil. -/
theorem Client.readFrame_binary (J : Json) (self : ClientId) (c : Client) (f : Frame)
    (hb : f.messageType = BinaryMessage) :
    (Client.readFrame J self c f).1.currentFileMetadata = none ∧
    (Client.readFrame J self c f).2 =
      c.currentFileMetadata.map (fun md => ⟨BinaryMessage, f.p, self, some md⟩) := by
  have ht : f.messageType ≠ TextMessage := by rw [hb]; decide
  unfold Client.readFrame
  rw [if_neg ht, if_pos hb]
  cases h : c.currentFileMetadata with
  | none => simp [h]
  | some md => simp

/-- Where a pending metadata map comes from: it was there at the start and no
frame touched it, or it is the map of the last announcement, after which no
binary frame and no announcement came. -/
theorem Client.slot_origin (J : Json) (self : ClientId) :
    ∀ (pre : List Frame) (c : Client) (md : JMap),
      (Client.readPump J self c pre).1.currentFileMetadata = some md →
      (c.currentFileMetadata = some md ∧
        ∀ g ∈ pre, g.messageType ≠ BinaryMessage ∧ isAnnouncement J g = false) ∨
      ∃ (pre0 : List Frame) (a : Frame) (mid : List Frame), pre = pre0 ++ a :: mid ∧
        isAnnouncement J a = true ∧ J.Unmarshal a.p = some (some md) ∧
        ∀ g ∈ mid, g.messageType ≠ BinaryMessage ∧ isAnnouncement J g = false := by
  intro pre
  induction pre with
  | nil =>
    intro c md h
    left
    exact ⟨h, fun g hg => absurd hg (List.not_mem_nil g)⟩
  | cons f fs ih =>
    intro c md h
    simp only [Client.readPump] at h
    rcases ih _ md h with ⟨h1, h2⟩ | ⟨pre0, a, mid, e, ha, hu, hm⟩
    · by_cases hb : f.messageType = BinaryMessage
      · rw [(Client.readFrame_binary J self c f hb).1] at h1
        exact absurd h1 (by simp)
      · cases ha : isAnnouncement J f with
        | false =>
          left
          rw [(Client.readFrame_other J self c f hb ha).1] at h1
          refine ⟨h1, ?_⟩
          intro g hg
          rcases List.mem_cons.mp hg with e | e
          · rw [e]; exact ⟨hb, ha⟩
          · exact h2 g e
        | true =>
          right
          obtain ⟨md', hu, e⟩ := Client.readFrame_announcement J self c f ha
          rw [e] at h1
          simp only [Option.some.injEq] at h1
          exact ⟨[], f, fs, rfl, ha, by rw [hu, h1], h2⟩
    · right
      exact ⟨f :: pre0, a, mid, by rw [e]; rfl, ha, hu, hm⟩

/-- Writing the same key and value twice is writing it once: the broadcast
loop writes `isSender` into the one shared metadata map for every recipient,
and every recipient sees the map written once. -/
theorem JMap.set_set (m : JMap) (k : String) (v : JVal) :
    JMap.set (JMap.set m k v) k v = JMap.set m k v := by
  induction m with
  | nil => simp [JMap.set]
  | cons e rest ih =>
    obtain ⟨k', v'⟩ := e
    by_cases h : k' = k
    · simp [JMap.set, h]
    · simp [JMap.set, h, ih]

theorem Room.FullAt.evicts {J : Json} {message : Message} {cl : Client}
    {q : List WebSocketMessage} (h : Room.FullAt J message cl q)
    (ho : cl.send.closed = false) (hco : cl.closeOnce = false) :
    Room.relayable J message ∧
    ∃ cl', Room.relay J message cl = Outcome.evict cl' ∧ cl'.send.closed = true ∧
      cl'.send.buf = q := by
  cases h with
  | text m d hb hu hj hl =>
    exact ⟨⟨fun e => absurd e hb, fun _ => by rw [hu]; simp⟩, _,
      Room.relay_text_full J message cl m d hb hu hj ho hl, rfl, rfl⟩
  | metadata md js hb hm hj hl =>
    exact ⟨⟨fun _ => by rw [hm]; simp, fun e => absurd hb e⟩, _,
      Room.relay_metadata_full J message cl md js hb hm hj ho hco hl, rfl, rfl⟩
  | payload md js hb hm hj hl =>
    exact ⟨⟨fun _ => by rw [hm]; simp, fun e => absurd hb e⟩, _,
      Room.relay_payload_full J message cl md js hb hm hj ho hl, rfl, rfl⟩
  | payloadAlone md hb hm hj hl =>
    exact ⟨⟨fun _ => by rw [hm]; simp, fun e => absurd hb e⟩, _,
      Room.relay_payload_alone_full J message cl md hb hm hj ho hl, rfl, rfl⟩

/-! ## The claims -/

/-- C1 (the code departs from the claim).  Terminating a session that is a
current member with an open queue ends in the panic "close of closed channel":
the room closes the queue in its unregister case without the one-shot guard,
and the session then runs the guard, which closes the queue a second time.
The same happens to a session that the room evicted through the unguarded
`close` of a full queue. -/
theorem teardown_closes_closed_queue (J : Json) (st : State) (c : ClientId)
    (hp : st.panicked = none) (hm : c ∈ st.clients)
    (ho : (st.heap c).send.closed = false) (hco : (st.heap c).closeOnce = false) :
    (Client.teardown J st c).panicked = some Panic.closeOfClosedChannel ∧
    ∀ m : WebSocketMessage, (st.heap c).send.cap ≤ (st.heap c).send.buf.length →
      (Client.teardown J (Room.visit (fun _ cl => cl.sendOrClose m) st c) c).panicked =
        some Panic.closeOfClosedChannel := by
  constructor
  · simp [Client.teardown, Room.step, hp, Room.onUnregister, hm, State.delete,
      Client.closeSend, ho, State.setClient, Client.closeOnceDo, hco]
  · intro m hfull
    have hv : Room.visit (fun _ cl => cl.sendOrClose m) st c =
        (st.setClient c { st.heap c with send := { (st.heap c).send with closed := true } }).delete c := by
      simp [Room.visit, hp, Client.sendOrClose_full _ m ho hfull, State.apply]
    rw [hv]
    simp [Client.teardown, Room.step, hp, Room.onUnregister, State.delete,
      Client.closeSend, State.setClient, Client.closeOnceDo, hco]

/-- Witness of C1: the only member of a room, as built by `serveWs`. -/
theorem teardown_closes_closed_queue_witness :
    (Client.teardown refJson (freshRoom [0]) 0).panicked = some Panic.closeOfClosedChannel :=
  (teardown_closes_closed_queue refJson (freshRoom [0]) 0 rfl (by decide) rfl rfl).1

/-- C2 (the code departs from the claim).  A session as built by `serveWs`
holds a non-nil, empty metadata map, so the first binary frame it receives is
forwarded to the room with that empty map and the slot is then cleared; the
other member of a two-member room is sent the text `{"isSender":false}` and
the payload. -/
theorem fresh_session_forwards_binary (J : Json) (self : ClientId) (B : Bytes) :
    Client.readFrame J self newClient ⟨BinaryMessage, B⟩ =
      ({ newClient with currentFileMetadata := none },
        some { MType := BinaryMessage, Data := B, Sender := self, Metadata := some [] }) ∧
    ((Room.step refJson (freshRoom [0, 1])
        (Event.broadcast ⟨BinaryMessage, [7, 8, 9], 0, some []⟩)).heap 1).send.buf =
      [⟨TextMessage, bytesOf "\x7b\"isSender\":false\x7d"⟩, ⟨BinaryMessage, [7, 8, 9]⟩] := by
  constructor
  · rfl
  · rfl

/-- C3.  Processing a Broadcast Item leaves the client value of its recorded
sender, and so its outbound queue, unchanged and keeps the sender's
membership as it was; this holds in every room state, hence after every
sequence of earlier events. -/
theorem broadcast_self_exclusion (J : Json) (st : State) (message : Message) :
    (Room.step J st (Event.broadcast message)).heap message.Sender = st.heap message.Sender ∧
    (message.Sender ∈ (Room.step J st (Event.broadcast message)).clients ↔
      message.Sender ∈ st.clients) ∧
    ∀ pre : List Event,
      ((Room.run J st (pre ++ [Event.broadcast message])).heap message.Sender).send =
        ((Room.run J st pre).heap message.Sender).send ∧
      (message.Sender ∈ (Room.run J st (pre ++ [Event.broadcast message])).clients ↔
        message.Sender ∈ (Room.run J st pre).clients) := by
  have one : ∀ s : State,
      (Room.step J s (Event.broadcast message)).heap message.Sender = s.heap message.Sender ∧
      (message.Sender ∈ (Room.step J s (Event.broadcast message)).clients ↔
        message.Sender ∈ s.clients) := by
    intro s
    unfold Room.step
    split
    · exact ⟨rfl, Iff.rfl⟩
    · have h := Room.fold_fixed
        (fun c cl => if c = message.Sender then Outcome.keep cl else Room.relay J message cl)
        message.Sender (fun _ => True) (fun cl _ => Or.inl (by simp)) s.clients s trivial
      refine ⟨h.1, ?_⟩
      have hc := h.2
      simp only [Room.onBroadcast, Room.forEach]
      rw [← List.count_pos_iff, ← List.count_pos_iff, hc]
  refine ⟨(one st).1, (one st).2, ?_⟩
  intro pre
  have h := one (Room.run J st pre)
  rw [Room.run_append]
  exact ⟨congrArg Client.send h.1, h.2⟩

/-- C6 (the code departs from the claim).  A text frame whose payload decodes
without error to the nil map, as `null` does, is forwarded by the inbound loop,
and the broadcast case then panics on the write `msg["isSender"] = false` as
soon as the room has a member other than the sender. -/
theorem null_text_item_panics (J : Json) (st : State) (self : ClientId) (c : Client)
    (p : Bytes) (hp : st.panicked = none) (hu : J.Unmarshal p = some none)
    (hr : ∃ r ∈ st.clients, r ≠ self) :
    Client.readFrame J self c ⟨TextMessage, p⟩ =
      (c, some { MType := TextMessage, Data := p, Sender := self, Metadata := none }) ∧
    (Room.step J st (Event.broadcast
      { MType := TextMessage, Data := p, Sender := self, Metadata := none })).panicked =
      some Panic.assignToNilMap := by
  constructor
  · simp [Client.readFrame, hu, GoMap.index, isString]
  · rw [Room.step_of_running J st _ hp]
    exact Room.fold_nil_map J ⟨TextMessage, p, self, none⟩ (by simp [TextMessage, BinaryMessage])
      hu st.clients st hp hr

/-- Witness of C6: in a room of two sessions, the text frame `null`. -/
theorem null_text_item_panics_witness :
    Client.readFrame refJson 0 newClient ⟨TextMessage, bytesOf "null"⟩ =
      (newClient, some ⟨TextMessage, bytesOf "null", 0, none⟩) ∧
    (Room.step refJson (freshRoom [0, 1])
      (Event.broadcast ⟨TextMessage, bytesOf "null", 0, none⟩)).panicked =
      some Panic.assignToNilMap :=
  null_text_item_panics refJson (freshRoom [0, 1]) 0 newClient (bytesOf "null") rfl rfl
    ⟨1, by decide, by decide⟩

/-- C4.  When a session receives a metadata announcement `M` and then a binary
payload `B`, the inbound loop forwards exactly one item, the binary item with
metadata `M`, and clears the slot; when the room processes that item, every
other member with at least two free slots gets exactly two messages appended,
adjacent and in this order: the text message that is the serialization of `M`
with `isSender` set to false, then the binary message with the bytes `B`.
The member stays in the room with its queue open. -/
theorem metadata_then_binary_relayed (J : Json) (self : ClientId) (c : Client)
    (p B : Bytes) (M : JMap) (js : Bytes)
    (hM : J.Unmarshal p = some (some M))
    (hty : isString (GoMap.index (some M) "type") "file_metadata" = true)
    (hjs : J.Marshal (JMap.set M "isSender" (JVal.bool false)) = some js) :
    Client.readPump J self c [⟨TextMessage, p⟩, ⟨BinaryMessage, B⟩] =
      ({ c with currentFileMetadata := none }, [⟨BinaryMessage, B, self, some M⟩]) ∧
    ∀ (st : State) (r : ClientId), st.WF → st.panicked = none → r ∈ st.clients → r ≠ self →
      (st.heap r).send.buf.length + 2 ≤ (st.heap r).send.cap →
      ((Room.step J st (Event.broadcast ⟨BinaryMessage, B, self, some M⟩)).heap r).send.buf =
        (st.heap r).send.buf ++ [⟨TextMessage, js⟩, ⟨BinaryMessage, B⟩] ∧
      r ∈ (Room.step J st (Event.broadcast ⟨BinaryMessage, B, self, some M⟩)).clients ∧
      ((Room.step J st (Event.broadcast ⟨BinaryMessage, B, self, some M⟩)).heap r).send.closed =
        false ∧
      (Room.step J st (Event.broadcast ⟨BinaryMessage, B, self, some M⟩)).panicked = none := by
  constructor
  · simp [Client.readPump, Client.readFrame, hM, hty, TextMessage, BinaryMessage]
  · intro st r hwf hp hr hrs hlen
    have hrel : Room.relayable J ⟨BinaryMessage, B, self, some M⟩ :=
      ⟨fun _ => by simp, fun h => absurd rfl h⟩
    obtain ⟨h1, h2, h3⟩ := Room.onBroadcast_spec J st ⟨BinaryMessage, B, self, some M⟩ hwf hp hrel
    have ho := (hwf.2 r hr).1
    have hrl := Room.relay_binary_room J ⟨BinaryMessage, B, self, some M⟩ (st.heap r) M js
      rfl rfl hjs ho hlen
    rw [Room.step_of_running J st _ hp]
    refine ⟨?_, ?_, ?_, h1⟩
    · rw [h2 r, if_pos ⟨hr, hrs⟩, hrl]
      rfl
    · rw [h3 r, hrl]
      exact ⟨hr, Or.inr rfl⟩
    · rw [h2 r, if_pos ⟨hr, hrs⟩, hrl]
      exact ho

/-- Witness of C4: the metadata of the end-to-end scenario and a payload of
ten bytes, sent by session 0 in a room of three fresh sessions. -/
theorem metadata_then_binary_relayed_witness :
    Client.readPump refJson 0 newClient
      [⟨TextMessage, bytesOf
        "\x7b\"type\":\"file_metadata\",\"name\":\"x.png\",\"size\":10\x7d"⟩,
       ⟨BinaryMessage, [0, 1, 2, 3, 4, 5, 6, 7, 8, 9]⟩] =
      ({ newClient with currentFileMetadata := none },
        [⟨BinaryMessage, [0, 1, 2, 3, 4, 5, 6, 7, 8, 9], 0,
          some [("type", JVal.str "file_metadata"), ("name", JVal.str "x.png"),
            ("size", JVal.num 10)]⟩]) ∧
    ((Room.step refJson (freshRoom [0, 1, 2])
      (Event.broadcast ⟨BinaryMessage, [0, 1, 2, 3, 4, 5, 6, 7, 8, 9], 0,
        some [("type", JVal.str "file_metadata"), ("name", JVal.str "x.png"),
          ("size", JVal.num 10)]⟩)).heap 1).send.buf =
      [] ++ [⟨TextMessage, bytesOf
        "\x7b\"isSender\":false,\"name\":\"x.png\",\"size\":10,\"type\":\"file_metadata\"\x7d"⟩,
        ⟨BinaryMessage, [0, 1, 2, 3, 4, 5, 6, 7, 8, 9]⟩] := by
  have h := metadata_then_binary_relayed refJson 0 newClient
    (bytesOf "\x7b\"type\":\"file_metadata\",\"name\":\"x.png\",\"size\":10\x7d")
    [0, 1, 2, 3, 4, 5, 6, 7, 8, 9]
    [("type", JVal.str "file_metadata"), ("name", JVal.str "x.png"), ("size", JVal.num 10)]
    (bytesOf
      "\x7b\"isSender\":false,\"name\":\"x.png\",\"size\":10,\"type\":\"file_metadata\"\x7d")
    rfl rfl rfl
  exact ⟨h.1, (h.2 (freshRoom [0, 1, 2]) 1 (freshRoom_WF _ (by decide)) rfl (by decide)
    (by decide) (by decide)).1⟩

/-- C9.  For a text item whose payload decodes to the mapping `m`, every
member other than the sender with a free slot gets exactly one text message
appended: the serialization of `m` with `isSender` set to false.  In that
mapping `isSender` is false whatever the sender supplied, and every other key
has the value it has in `m`. -/
theorem text_relay_sets_isSender (J : Json) (st : State) (message : Message) (m : JMap)
    (d : Bytes) (hwf : st.WF) (hp : st.panicked = none)
    (ht : message.MType = TextMessage)
    (hu : J.Unmarshal message.Data = some (some m))
    (hd : J.Marshal (JMap.set m "isSender" (JVal.bool false)) = some d) :
    (∀ r ∈ st.clients, r ≠ message.Sender →
      (st.heap r).send.buf.length < (st.heap r).send.cap →
      ((Room.step J st (Event.broadcast message)).heap r).send.buf =
        (st.heap r).send.buf ++ [⟨TextMessage, d⟩] ∧
      r ∈ (Room.step J st (Event.broadcast message)).clients) ∧
    GoMap.index (some (JMap.set m "isSender" (JVal.bool false))) "isSender" =
      some (JVal.bool false) ∧
    ∀ k, k ≠ "isSender" →
      GoMap.index (some (JMap.set m "isSender" (JVal.bool false))) k = GoMap.index (some m) k := by
  have htb : message.MType ≠ BinaryMessage := by rw [ht]; decide
  refine ⟨?_, JMap.lookup_set_self m _ _, fun k hk => JMap.lookup_set_ne m _ k _ hk⟩
  intro r hr hrs hlen
  have hrel : Room.relayable J message :=
    ⟨fun h => absurd h htb, fun _ => by rw [hu]; simp⟩
  obtain ⟨_, h2, h3⟩ := Room.onBroadcast_spec J st message hwf hp hrel
  have hrl := Room.relay_text_room J message (st.heap r) m d htb hu hd (hwf.2 r hr).1 hlen
  rw [Room.step_of_running J st _ hp]
  constructor
  · rw [h2 r, if_pos ⟨hr, hrs⟩, hrl, ht]
    rfl
  · rw [h3 r, hrl]
    exact ⟨hr, Or.inr rfl⟩

/-- Witness of C9: the chat message of the end-to-end scenario, sent by
session 0 in a room of three fresh sessions, as session 1 gets it; the bytes
enqueued decode to the mapping with the three keys. -/
theorem text_relay_sets_isSender_witness :
    ((Room.step refJson (freshRoom [0, 1, 2])
      (Event.broadcast ⟨TextMessage, bytesOf "\x7b\"type\":\"chat\",\"msg\":\"hi\"\x7d", 0,
        none⟩)).heap 1).send.buf =
      [] ++ [⟨TextMessage, bytesOf "\x7b\"isSender\":false,\"msg\":\"hi\",\"type\":\"chat\"\x7d"⟩] ∧
    refJson.Unmarshal (bytesOf "\x7b\"isSender\":false,\"msg\":\"hi\",\"type\":\"chat\"\x7d") =
      some (some [("isSender", JVal.bool false), ("msg", JVal.str "hi"),
        ("type", JVal.str "chat")]) :=
  ⟨((text_relay_sets_isSender refJson (freshRoom [0, 1, 2])
      ⟨TextMessage, bytesOf "\x7b\"type\":\"chat\",\"msg\":\"hi\"\x7d", 0, none⟩
      [("type", JVal.str "chat"), ("msg", JVal.str "hi")]
      (bytesOf "\x7b\"isSender\":false,\"msg\":\"hi\",\"type\":\"chat\"\x7d")
      (freshRoom_WF _ (by decide)) rfl rfl rfl rfl).1 1 (by decide) (by decide)
      (by decide)).1, rfl⟩

/-- C8.  On Register(s) in a well-formed room: when the membership with `s`
added has more than one member, every member (including `s`) with a free slot
gets exactly the join notification appended and stays, and every member with a
full queue is deleted and has its queue closed, nothing being appended; when
the membership with `s` added has exactly one member, no client changes.  The
notification bytes decode to the mapping type = "status", message = "User has
joined. You can now share files.", ready = true.  With 0, 1, 2 joining an
empty room in order: 0 gets nothing when it joins alone, 0 and 1 each get the
notification when 1 joins, and 0, 1, 2 each get it when 2 joins. -/
theorem register_notifies (J : Json) (st : State) (s : ClientId) (hwf : st.WF)
    (hp : st.panicked = none) (hs : (st.heap s).send.closed = false) :
    (1 < (st.insert s).clients.length →
      ∀ c, (c ∈ st.clients ∨ c = s) →
        ((st.heap c).send.buf.length < (st.heap c).send.cap →
          ((Room.step J st (Event.register s)).heap c).send.buf =
            (st.heap c).send.buf ++ [⟨TextMessage, bytesOf joinNotice⟩] ∧
          c ∈ (Room.step J st (Event.register s)).clients ∧
          ((Room.step J st (Event.register s)).heap c).send.closed = false) ∧
        ((st.heap c).send.cap ≤ (st.heap c).send.buf.length →
          c ∉ (Room.step J st (Event.register s)).clients ∧
          ((Room.step J st (Event.register s)).heap c).send.closed = true ∧
          ((Room.step J st (Event.register s)).heap c).send.buf = (st.heap c).send.buf)) ∧
    ((st.insert s).clients.length = 1 →
      ∀ c, (Room.step J st (Event.register s)).heap c = st.heap c) ∧
    refJson.Unmarshal (bytesOf joinNotice) =
      some (some [("type", JVal.str "status"),
        ("message", JVal.str "User has joined. You can now share files."),
        ("ready", JVal.bool true)]) ∧
    ((Room.run J (freshRoom []) [Event.register 0]).heap 0).send.buf = [] ∧
    ((Room.run J (freshRoom []) [Event.register 0, Event.register 1]).heap 0).send.buf =
      [⟨TextMessage, bytesOf joinNotice⟩] ∧
    ((Room.run J (freshRoom []) [Event.register 0, Event.register 1]).heap 1).send.buf =
      [⟨TextMessage, bytesOf joinNotice⟩] ∧
    ((Room.run J (freshRoom [])
      [Event.register 0, Event.register 1, Event.register 2]).heap 0).send.buf =
      [⟨TextMessage, bytesOf joinNotice⟩, ⟨TextMessage, bytesOf joinNotice⟩] ∧
    ((Room.run J (freshRoom [])
      [Event.register 0, Event.register 1, Event.register 2]).heap 1).send.buf =
      [⟨TextMessage, bytesOf joinNotice⟩, ⟨TextMessage, bytesOf joinNotice⟩] ∧
    ((Room.run J (freshRoom [])
      [Event.register 0, Event.register 1, Event.register 2]).heap 2).send.buf =
      [⟨TextMessage, bytesOf joinNotice⟩] := by
  refine ⟨?_, ?_, by rfl, ?_⟩
  · intro hlen c hc
    obtain ⟨_, h2, h3⟩ := Room.onRegister_spec st s hwf hp hs hlen
    have ho : (st.heap c).send.closed = false := by
      rcases hc with h | h
      · exact (hwf.2 c h).1
      · exact h ▸ hs
    rw [Room.step_of_running J st _ hp]
    constructor
    · intro hroom
      have e := Client.sendOrClose_room (st.heap c) ⟨TextMessage, bytesOf joinNotice⟩ ho hroom
      refine ⟨?_, ?_, ?_⟩
      · rw [h2 c, if_pos hc, e]; rfl
      · rw [h3 c, e]; exact ⟨hc, rfl⟩
      · rw [h2 c, if_pos hc, e]; exact ho
    · intro hfull
      have e := Client.sendOrClose_full (st.heap c) ⟨TextMessage, bytesOf joinNotice⟩ ho hfull
      refine ⟨?_, ?_, ?_⟩
      · rw [h3 c, e]; simp [Outcome.evicts]
      · rw [h2 c, if_pos hc, e]; rfl
      · rw [h2 c, if_pos hc, e]; rfl
  · intro hlen c
    rw [Room.step_of_running J st _ hp]
    simp only [Room.onRegister, hlen, gt_iff_lt, Nat.lt_irrefl, if_false]
    rfl
  · refine ⟨?_, ?_, ?_, ?_, ?_, ?_⟩ <;>
      simp [Room.run, Room.step, Room.onRegister, freshRoom, State.insert, Room.forEach,
        Room.visit, State.apply, Client.sendOrClose, Chan.trySend, newClient, State.setClient]

/-- Witness of C8: session 1 joins a room whose only member is session 0. -/
theorem register_notifies_witness :
    ((Room.step refJson (freshRoom [0]) (Event.register 1)).heap 0).send.buf =
      [] ++ [⟨TextMessage, bytesOf joinNotice⟩] ∧
    ((Room.step refJson (freshRoom [0]) (Event.register 1)).heap 1).send.buf =
      [] ++ [⟨TextMessage, bytesOf joinNotice⟩] := by
  have h := (register_notifies refJson (freshRoom [0]) 1 (freshRoom_WF _ (by decide)) rfl rfl).1
    (by decide)
  exact ⟨((h 0 (Or.inl (by decide))).1 (by decide)).1, ((h 1 (Or.inr rfl)).1 (by decide)).1⟩

/-- C5.  In a well-formed room, take a member other than the sender and a
delivery attempt to it (of the relayed text message, of the relayed metadata,
or of the binary payload) that finds its queue `q` at capacity.  That step
deletes the member from the membership and closes its queue; the queue holds
what it held at the failed attempt, and no later sequence of events changes
it.  Every other client ends the step with the value and the membership it
would have had, had the evicted member not been in the room. -/
theorem overflow_eviction (J : Json) (st : State) (message : Message) (c : ClientId)
    (q : List WebSocketMessage) (hwf : st.WF) (hp : st.panicked = none)
    (hc : c ∈ st.clients) (hs : c ≠ message.Sender)
    (hfull : Room.FullAt J message (st.heap c) q) :
    (st.heap c).send.cap ≤ q.length ∧
    c ∉ (Room.step J st (Event.broadcast message)).clients ∧
    ((Room.step J st (Event.broadcast message)).heap c).send.closed = true ∧
    ((Room.step J st (Event.broadcast message)).heap c).send.buf = q ∧
    (∀ evs : List Event,
      ((Room.run J (Room.step J st (Event.broadcast message)) evs).heap c).send.buf = q) ∧
    (Room.step J st (Event.broadcast message)).panicked = none ∧
    ∀ r, r ≠ c →
      (Room.step J st (Event.broadcast message)).heap r =
        (Room.step J (st.delete c) (Event.broadcast message)).heap r ∧
      (r ∈ (Room.step J st (Event.broadcast message)).clients ↔
        r ∈ (Room.step J (st.delete c) (Event.broadcast message)).clients) := by
  obtain ⟨hrel, cl', he, hcl, hbuf⟩ := hfull.evicts (hwf.2 c hc).1 (hwf.2 c hc).2
  obtain ⟨h1, h2, h3⟩ := Room.onBroadcast_spec J st message hwf hp hrel
  obtain ⟨_, g2, g3⟩ := Room.onBroadcast_spec J (st.delete c) message (st.WF_delete c hwf) hp hrel
  have hstep : Room.step J (st.delete c) (Event.broadcast message) =
      Room.onBroadcast J (st.delete c) message := Room.step_of_running J _ _ hp
  rw [Room.step_of_running J st _ hp, hstep]
  have hheap : (Room.onBroadcast J st message).heap c = cl' := by
    rw [h2 c, if_pos ⟨hc, hs⟩, he]; rfl
  have hclosed : ((Room.onBroadcast J st message).heap c).send.closed = true := by
    rw [hheap]; exact hcl
  refine ⟨?_, ?_, hclosed, ?_, ?_, h1, ?_⟩
  · cases hfull with
    | text m d _ _ _ hl => exact hl
    | metadata md js _ _ _ hl => exact hl
    | payload md js _ _ _ hl =>
      simp only [List.length_append, List.length_singleton]; omega
    | payloadAlone md _ _ _ hl => exact hl
  · rw [h3 c, he]
    simp [Outcome.evicts, hs]
  · rw [hheap]; exact hbuf
  · intro evs
    rw [Room.run_closed_frozen J c evs _ hclosed, hheap]
    exact hbuf
  · intro r hr
    have hmem : r ∈ (st.delete c).clients ↔ r ∈ st.clients := by
      simp [State.delete, List.mem_filter, hr]
    constructor
    · rw [h2 r, g2 r]
      simp only [hmem]
      rfl
    · rw [h3 r, g3 r]
      simp only [hmem]
      exact Iff.rfl

/-- Witness of C5: session 1 has 256 messages queued when session 0 sends the
chat message of the end-to-end scenario. -/
theorem overflow_eviction_witness :
    (1 : ClientId) ∉ (Room.step refJson (roomWithBacklog 256) (Event.broadcast
      ⟨TextMessage, bytesOf "\x7b\"type\":\"chat\",\"msg\":\"hi\"\x7d", 0, none⟩)).clients ∧
    ((Room.step refJson (roomWithBacklog 256) (Event.broadcast
      ⟨TextMessage, bytesOf "\x7b\"type\":\"chat\",\"msg\":\"hi\"\x7d", 0, none⟩)).heap 1).send.closed =
      true := by
  have h := overflow_eviction refJson (roomWithBacklog 256)
    ⟨TextMessage, bytesOf "\x7b\"type\":\"chat\",\"msg\":\"hi\"\x7d", 0, none⟩ 1
    ((roomWithBacklog 256).heap 1).send.buf (roomWithBacklog_WF 256) rfl (by decide) (by decide)
    (Room.FullAt.text [("type", JVal.str "chat"), ("msg", JVal.str "hi")]
      (bytesOf "\x7b\"isSender\":false,\"msg\":\"hi\",\"type\":\"chat\"\x7d")
      (by decide) (by rfl) (by rfl)
      (by show 256 ≤ (List.replicate 256 _).length
          rw [List.length_replicate]))
  exact ⟨h.2.1, h.2.2.1⟩

/-- C7 as stated fails: after the announcement of the end-to-end scenario and
then a chat message, a binary frame is forwarded although the frame right
before it is not a metadata announcement. -/
theorem binary_after_chat_is_forwarded :
    ¬ ImmediatelyAnnounced refJson 0 newClient
      [⟨TextMessage, bytesOf "\x7b\"type\":\"file_metadata\",\"name\":\"x.png\",\"size\":10\x7d"⟩,
       ⟨TextMessage, bytesOf "\x7b\"type\":\"chat\",\"msg\":\"hi\"\x7d"⟩,
       ⟨BinaryMessage, [0, 1, 2, 3, 4, 5, 6, 7, 8, 9]⟩] := by
  intro h
  obtain ⟨pre0, a, e, ha⟩ := h
    [⟨TextMessage, bytesOf "\x7b\"type\":\"file_metadata\",\"name\":\"x.png\",\"size\":10\x7d"⟩,
     ⟨TextMessage, bytesOf "\x7b\"type\":\"chat\",\"msg\":\"hi\"\x7d"⟩]
    ⟨BinaryMessage, [0, 1, 2, 3, 4, 5, 6, 7, 8, 9]⟩ [] rfl rfl (by rfl)
  have hlast := congrArg List.getLast? e
  have ha2 : a = ⟨TextMessage, bytesOf "\x7b\"type\":\"chat\",\"msg\":\"hi\"\x7d"⟩ := by
    simpa using hlast.symm
  rw [ha2] at ha
  have hf : isAnnouncement refJson
      ⟨TextMessage, bytesOf "\x7b\"type\":\"chat\",\"msg\":\"hi\"\x7d"⟩ = false := by rfl
  rw [hf] at ha
  exact absurd ha (by decide)

/-- C7, amended.  For every sequence of frames received on one connection,
from any start and so from a freshly created session: a binary frame that is
forwarded after the session has received at least one binary frame or
metadata announcement comes after a metadata announcement with no binary
frame and no further announcement between the two (other text frames may come
between), and is forwarded with the mapping of that announcement.  A binary
frame that follows another binary frame with no announcement between them is
not forwarded. -/
theorem forwarded_binary_follows_announcement (J : Json) (self : ClientId) :
    (∀ (c : Client) (pre : List Frame) (f : Frame),
      (∃ g ∈ pre, g.messageType = BinaryMessage ∨ isAnnouncement J g = true) →
      f.messageType = BinaryMessage →
      (Client.readFrame J self (Client.readPump J self c pre).1 f).2.isSome = true →
      ∃ (pre0 : List Frame) (a : Frame) (mid : List Frame) (md : JMap),
        pre = pre0 ++ a :: mid ∧ isAnnouncement J a = true ∧
        J.Unmarshal a.p = some (some md) ∧
        (∀ g ∈ mid, g.messageType ≠ BinaryMessage ∧ isAnnouncement J g = false) ∧
        (Client.readFrame J self (Client.readPump J self c pre).1 f).2 =
          some ⟨BinaryMessage, f.p, self, some md⟩) ∧
    ∀ (c : Client) (pre : List Frame) (b : Frame) (mid : List Frame) (f : Frame),
      b.messageType = BinaryMessage → (∀ g ∈ mid, isAnnouncement J g = false) →
      f.messageType = BinaryMessage →
      (Client.readFrame J self (Client.readPump J self c (pre ++ b :: mid)).1 f).2 = none := by
  constructor
  · intro c pre f hpre hb hf
    have hfb := (Client.readFrame_binary J self (Client.readPump J self c pre).1 f hb).2
    rw [hfb] at hf ⊢
    cases hs : (Client.readPump J self c pre).1.currentFileMetadata with
    | none => rw [hs] at hf; simp at hf
    | some md =>
      rcases Client.slot_origin J self pre c md hs with ⟨_, h2⟩ | ⟨pre0, a, mid, e, ha, hu, hm⟩
      · obtain ⟨g, hg, hgb | hga⟩ := hpre
        · exact absurd hgb (h2 g hg).1
        · rw [(h2 g hg).2] at hga
          exact absurd hga (by decide)
      · exact ⟨pre0, a, mid, md, e, ha, hu, hm, rfl⟩
  · intro c pre b mid f hbb hmid hb
    rw [(Client.readFrame_binary J self _ f hb).2]
    cases hs : (Client.readPump J self c (pre ++ b :: mid)).1.currentFileMetadata with
    | none => rfl
    | some md =>
      exfalso
      rw [Client.readPump_append] at hs
      simp only [Client.readPump] at hs
      rcases Client.slot_origin J self mid _ md hs with ⟨h1, _⟩ | ⟨pre0, a, mid2, e, ha, _, _⟩
      · rw [(Client.readFrame_binary J self _ b hbb).1] at h1
        exact absurd h1 (by simp)
      · have := hmid a (by rw [e]; simp)
        rw [this] at ha
        exact absurd ha (by decide)

/-- Witness of the amended C7: the announcement of the end-to-end scenario,
then a chat message, then a binary frame, received by a session as built by
`serveWs`. -/
theorem forwarded_binary_follows_announcement_witness :
    ∃ (pre0 : List Frame) (a : Frame) (mid : List Frame) (md : JMap),
      [(⟨TextMessage,
          bytesOf "\x7b\"type\":\"file_metadata\",\"name\":\"x.png\",\"size\":10\x7d"⟩ : Frame),
        ⟨TextMessage, bytesOf "\x7b\"type\":\"chat\",\"msg\":\"hi\"\x7d"⟩] = pre0 ++ a :: mid ∧
      isAnnouncement refJson a = true ∧
      refJson.Unmarshal a.p = some (some md) ∧
      (∀ g ∈ mid, g.messageType ≠ BinaryMessage ∧ isAnnouncement refJson g = false) ∧
      (Client.readFrame refJson 0
        (Client.readPump refJson 0 newClient
          [⟨TextMessage,
              bytesOf "\x7b\"type\":\"file_metadata\",\"name\":\"x.png\",\"size\":10\x7d"⟩,
            ⟨TextMessage, bytesOf "\x7b\"type\":\"chat\",\"msg\":\"hi\"\x7d"⟩]).1
        ⟨BinaryMessage, [0, 1, 2, 3, 4, 5, 6, 7, 8, 9]⟩).2 =
        some ⟨BinaryMessage, (⟨BinaryMessage, [0, 1, 2, 3, 4, 5, 6, 7, 8, 9]⟩ : Frame).p, 0,
          some md⟩ :=
  (forwarded_binary_follows_announcement refJson 0).1 newClient
    [⟨TextMessage, bytesOf "\x7b\"type\":\"file_metadata\",\"name\":\"x.png\",\"size\":10\x7d"⟩,
      ⟨TextMessage, bytesOf "\x7b\"type\":\"chat\",\"msg\":\"hi\"\x7d"⟩]
    ⟨BinaryMessage, [0, 1, 2, 3, 4, 5, 6, 7, 8, 9]⟩
    ⟨⟨TextMessage, bytesOf "\x7b\"type\":\"file_metadata\",\"name\":\"x.png\",\"size\":10\x7d"⟩,
      List.mem_cons_self _ _, Or.inr (by rfl)⟩
    rfl (by rfl)

/-- C10.  When a session receives the announcement `M1`, then frames that are
not binary, then the announcement `M2`, then frames that are neither binary
nor announcements, then the binary frame `B`: neither announcement is
forwarded, the slot is empty at the end, and the items forwarded are items of
text kind followed by exactly one item of binary kind, which carries the
metadata `M2` and the payload `B`. -/
theorem second_announcement_replaces_first (J : Json) (self : ClientId) (c : Client)
    (p1 p2 B : Bytes) (M1 M2 : JMap) (mid1 mid2 : List Frame)
    (h1 : J.Unmarshal p1 = some (some M1))
    (t1 : isString (GoMap.index (some M1) "type") "file_metadata" = true)
    (h2 : J.Unmarshal p2 = some (some M2))
    (t2 : isString (GoMap.index (some M2) "type") "file_metadata" = true)
    (hmid1 : ∀ g ∈ mid1, g.messageType ≠ BinaryMessage)
    (hmid2 : ∀ g ∈ mid2, g.messageType ≠ BinaryMessage ∧ isAnnouncement J g = false) :
    Client.readFrame J self c ⟨TextMessage, p1⟩ =
      ({ c with currentFileMetadata := some M1 }, none) ∧
    (∀ c1 : Client, Client.readFrame J self c1 ⟨TextMessage, p2⟩ =
      ({ c1 with currentFileMetadata := some M2 }, none)) ∧
    (Client.readPump J self c
      ((⟨TextMessage, p1⟩ :: mid1) ++ ((⟨TextMessage, p2⟩ :: mid2) ++
        [⟨BinaryMessage, B⟩]))).1.currentFileMetadata = none ∧
    ∃ texts : List Message,
      (Client.readPump J self c
        ((⟨TextMessage, p1⟩ :: mid1) ++ ((⟨TextMessage, p2⟩ :: mid2) ++
          [⟨BinaryMessage, B⟩]))).2 = texts ++ [⟨BinaryMessage, B, self, some M2⟩] ∧
      ∀ it ∈ texts, it.MType = TextMessage := by
  have e1 : ∀ c1 : Client, Client.readFrame J self c1 ⟨TextMessage, p1⟩ =
      ({ c1 with currentFileMetadata := some M1 }, none) := by
    intro c1; simp [Client.readFrame, h1, t1]
  have e2 : ∀ c1 : Client, Client.readFrame J self c1 ⟨TextMessage, p2⟩ =
      ({ c1 with currentFileMetadata := some M2 }, none) := by
    intro c1; simp [Client.readFrame, h2, t2]
  refine ⟨e1 c, e2, ?_, ?_⟩
  · rw [Client.readPump_append, Client.readPump_append]
    simp only [Client.readPump]
    exact (Client.readFrame_binary J self _ ⟨BinaryMessage, B⟩ rfl).1
  · refine ⟨(Client.readPump J self { c with currentFileMetadata := some M1 } mid1).2 ++
      (Client.readPump J self
        { (Client.readPump J self { c with currentFileMetadata := some M1 } mid1).1 with
          currentFileMetadata := some M2 } mid2).2, ?_, ?_⟩
    · rw [Client.readPump_append, Client.readPump_append]
      simp only [Client.readPump, e1, e2, Option.toList, List.nil_append, List.append_nil]
      rw [Client.readPump_other J self mid2 _ hmid2]
      rw [(Client.readFrame_binary J self _ ⟨BinaryMessage, B⟩ rfl).2]
      simp
    · intro it hit
      rcases List.mem_append.mp hit with h | h
      · exact Client.readPump_text_kind J self mid1 _ hmid1 it h
      · exact Client.readPump_text_kind J self mid2 _ (fun g hg => (hmid2 g hg).1) it h

/-- Witness of C10: two announcements and a payload received by a fresh
session, with nothing between them. -/
theorem second_announcement_replaces_first_witness :
    (Client.readPump refJson 0 newClient
      ((⟨TextMessage, bytesOf "\x7b\"type\":\"file_metadata\",\"name\":\"a.png\"\x7d"⟩ :: []) ++
        ((⟨TextMessage, bytesOf "\x7b\"type\":\"file_metadata\",\"name\":\"b.png\"\x7d"⟩ :: []) ++
          [⟨BinaryMessage, [1, 2, 3]⟩]))).1.currentFileMetadata = none ∧
    ∃ texts : List Message,
      (Client.readPump refJson 0 newClient
        ((⟨TextMessage, bytesOf "\x7b\"type\":\"file_metadata\",\"name\":\"a.png\"\x7d"⟩ :: []) ++
          ((⟨TextMessage, bytesOf "\x7b\"type\":\"file_metadata\",\"name\":\"b.png\"\x7d"⟩ :: []) ++
            [⟨BinaryMessage, [1, 2, 3]⟩]))).2 =
        texts ++ [⟨BinaryMessage, [1, 2, 3], 0,
          some [("type", JVal.str "file_metadata"), ("name", JVal.str "b.png")]⟩] ∧
      ∀ it ∈ texts, it.MType = TextMessage :=
  (second_announcement_replaces_first refJson 0 newClient
    (bytesOf "\x7b\"type\":\"file_metadata\",\"name\":\"a.png\"\x7d")
    (bytesOf "\x7b\"type\":\"file_metadata\",\"name\":\"b.png\"\x7d") [1, 2, 3]
    [("type", JVal.str "file_metadata"), ("name", JVal.str "a.png")]
    [("type", JVal.str "file_metadata"), ("name", JVal.str "b.png")] [] []
    (by rfl) (by rfl) (by rfl) (by rfl)
    (fun g hg => absurd hg (List.not_mem_nil g))
    (fun g hg => absurd hg (List.not_mem_nil g))).2.2

end Kolari
